import Mathlib

/-!
Verification development for the expressparser cron library (Go).

The Go sources are shallowly embedded: pure functions become Lean
functions, `map[int]bool` value sets become `Finset ℕ`, errors become an
explicit error type with `Except`, and the scheduler's search loops become
fuel-indexed recursions whose fuel mirrors the Go loop guards.

Times are modelled in the scheduler's zone (the default `time.UTC`) as
civil calendar records; `time.Date`'s field normalization is embedded for
the bounded field offsets the scheduler actually produces, and absolute
ordering of instants is obtained through the standard days-from-civil day
numbering (days since 1970-01-01), which is exactly how Go's `time`
package orders wall-clock times in a fixed zone.
-/

namespace ExpressParser

/-! ## Civil calendar arithmetic -/

/-- Gregorian leap-year predicate, as used by Go's `time` package. -/
def isLeapYear (y : ℤ) : Bool :=
  (y % 4 = 0 && y % 100 != 0) || y % 400 = 0

/-- Number of days in a month of a given year (1 = January .. 12 = December).
The Go code computes this as "first day of the next month minus one day"
(`Scheduler.lastDayOfMonth`); on the proleptic Gregorian calendar that is
exactly this table. -/
def daysInMonth (y : ℤ) (m : ℕ) : ℕ :=
  match m with
  | 1 => 31 | 2 => if isLeapYear y then 29 else 28
  | 3 => 31 | 4 => 30 | 5 => 31 | 6 => 30 | 7 => 31
  | 8 => 31 | 9 => 30 | 10 => 31 | 11 => 30 | 12 => 31
  | _ => 0

/-- Day number of a civil date, counted in days since 1970-01-01 (negative
before that).  This is the standard days-from-civil computation used by
calendar libraries (including Go's `time` internals, up to a fixed epoch
shift).  The day argument is an integer so that the function is affine in
`d`; that affineness is exactly `time.Date`'s normalization of out-of-range
day values. -/
def dayNumber (y : ℤ) (m : ℕ) (d : ℤ) : ℤ :=
  let yy : ℤ := if m ≤ 2 then y - 1 else y
  let era : ℤ := yy / 400
  let yoe : ℤ := yy - era * 400
  let doy : ℤ := (153 * (if 2 < m then (m : ℤ) - 3 else (m : ℤ) + 9) + 2) / 5 + d - 1
  let doe : ℤ := yoe * 365 + yoe / 4 - yoe / 100 + doy
  era * 146097 + doe - 719468

/-- Weekday of a civil date, 0 = Sunday .. 6 = Saturday (Go's
`time.Weekday` numbering).  1970-01-01 was a Thursday (= 4). -/
def weekdayOf (y : ℤ) (m : ℕ) (d : ℤ) : ℕ :=
  ((dayNumber y m d + 4) % 7).toNat


/-! ## DateTime and instants -/

/-- A second-resolution civil time in the scheduler's zone. -/
structure DateTime where
  year : ℤ
  month : ℕ
  day : ℕ
  hour : ℕ
  minute : ℕ
  second : ℕ
deriving DecidableEq, Repr

/-- A well-formed civil time: every field inside its calendar range. -/
def DateTime.Valid (t : DateTime) : Prop :=
  1 ≤ t.month ∧ t.month ≤ 12 ∧ 1 ≤ t.day ∧ t.day ≤ daysInMonth t.year t.month ∧
  t.hour ≤ 23 ∧ t.minute ≤ 59 ∧ t.second ≤ 59

instance (t : DateTime) : Decidable t.Valid := by
  unfold DateTime.Valid; infer_instance

/-- Absolute time in seconds (seconds since the 1970-01-01 00:00:00 epoch
in the scheduler's zone).  Go's `time.Time.Before`/`After` compare exactly
this quantity for wall-clock times in a fixed zone. -/
def DateTime.absSec (t : DateTime) : ℤ :=
  dayNumber t.year t.month t.day * 86400 +
    t.hour * 3600 + t.minute * 60 + t.second

def DateTime.before (a b : DateTime) : Bool := a.absSec < b.absSec

def DateTime.after (a b : DateTime) : Bool := b.absSec < a.absSec

/-- A full-resolution instant: a second-resolution civil time plus the
sub-second nanosecond component of Go's `time.Time`. -/
structure Instant where
  dt : DateTime
  nano : ℕ
deriving DecidableEq, Repr

def Instant.Valid (i : Instant) : Prop := i.dt.Valid ∧ i.nano < 1000000000

instance (i : Instant) : Decidable i.Valid := by
  unfold Instant.Valid; infer_instance

/-- Absolute time of an instant in nanoseconds. -/
def Instant.absNano (i : Instant) : ℤ := i.dt.absSec * 1000000000 + i.nano

/-- Go's `a.Before(b)` on instants. -/
def instLt (a b : Instant) : Prop := a.absNano < b.absNano

instance (a b : Instant) : Decidable (instLt a b) := by
  unfold instLt; infer_instance

/-- Lift a second-resolution time to an instant with zero nanoseconds (the
state of a `time.Time` after `Truncate(time.Second)`). -/
def DateTime.toInstant (t : DateTime) : Instant := ⟨t, 0⟩

/-! ## time.Date normalization for the field offsets the scheduler uses

The Go scheduler only ever builds times through `time.Date` with a field
nudged one unit out of range (day ± 1, hour ± 1, minute ± 1, second + 1,
or a day left over by `AddDate(±5,0,0)`), so a single borrow/carry step
per field reproduces `time.Date`'s normalization exactly on that domain. -/

/-- Normalize a day value `d` (with `0 ≤ d ≤ daysInMonth y m + 31`) into a
date, carrying into the next month or borrowing from the previous one as
`time.Date` does. -/
def normDay (y : ℤ) (m : ℕ) (d : ℤ) : ℤ × ℕ × ℕ :=
  if d ≤ 0 then
    -- borrow one month
    if m = 1 then (y - 1, 12, (31 + d).toNat)
    else (y, m - 1, ((daysInMonth y (m - 1) : ℤ) + d).toNat)
  else if (daysInMonth y m : ℤ) < d then
    -- carry into the next month
    if m = 12 then (y + 1, 1, (d - 31).toNat)
    else (y, m + 1, (d - daysInMonth y m).toNat)
  else (y, m, d.toNat)

/-- Embedding of `time.Date(y, m, d, hh, mm, ss, 0, loc)` for the bounded
out-of-range offsets produced by the scheduler's navigation helpers
(`hh ∈ [-1, 24]`, `mm ∈ [-1, 60]`, `ss ∈ [0, 60]`, day one unit out of
range at most after the hour carry). -/
def mkDate (y : ℤ) (m : ℕ) (d : ℤ) (hh mm ss : ℤ) : DateTime :=
  let mm1 : ℤ := if ss ≥ 60 then mm + 1 else mm
  let ss1 : ℤ := if ss ≥ 60 then ss - 60 else ss
  let hh1 : ℤ := if mm1 ≥ 60 then hh + 1 else if mm1 < 0 then hh - 1 else hh
  let mm2 : ℤ := if mm1 ≥ 60 then mm1 - 60 else if mm1 < 0 then mm1 + 60 else mm1
  let d1 : ℤ := if hh1 ≥ 24 then d + 1 else if hh1 < 0 then d - 1 else d
  let hh2 : ℤ := if hh1 ≥ 24 then hh1 - 24 else if hh1 < 0 then hh1 + 24 else hh1
  let ymd := normDay y m d1
  ⟨ymd.1, ymd.2.1, ymd.2.2, hh2.toNat, mm2.toNat, ss1.toNat⟩

/-- Go `t.Add(time.Second)` on a second-resolution time. -/
def DateTime.addSecond (t : DateTime) : DateTime :=
  mkDate t.year t.month t.day t.hour t.minute (t.second + 1)

/-- Go `t.Add(-time.Second)` on a second-resolution time. -/
def DateTime.subSecond (t : DateTime) : DateTime :=
  if t.second ≥ 1 then { t with second := t.second - 1 }
  else mkDate t.year t.month t.day t.hour ((t.minute : ℤ) - 1) 59

/-- Go `t.AddDate(years, 0, 0)`: same civil fields with the year shifted,
normalized (Feb 29 in a non-leap target year becomes Mar 1). -/
def DateTime.addYears (t : DateTime) (k : ℤ) : DateTime :=
  mkDate (t.year + k) t.month t.day t.hour t.minute t.second

/-- `Scheduler.lastDayOfMonth`: the Go code computes the first instant of
the following month and steps back one day; on the civil calendar this is
the `daysInMonth` table. -/
def lastDayOfMonth (y : ℤ) (m : ℕ) : ℕ := daysInMonth y m

/-- `Scheduler.lastWeekdayOfMonth`: walk backward from the last calendar
day while the weekday is Saturday or Sunday.  Structural recursion on the
day mirrors the Go loop (which never reaches day 0, as every month
contains weekdays). -/
def lastWeekdayWalk (y : ℤ) (m : ℕ) : ℕ → ℕ
  | 0 => 0
  | d + 1 =>
      if weekdayOf y m (d + 1) = 6 ∨ weekdayOf y m (d + 1) = 0 then
        lastWeekdayWalk y m d
      else d + 1

def lastWeekdayOfMonth (y : ℤ) (m : ℕ) : ℕ :=
  lastWeekdayWalk y m (lastDayOfMonth y m)

/-- `Scheduler.nearestWeekday`: nearest weekday (Mon-Fri) to day `day`,
clamped to the month's last day, per the Go switch on the weekday. -/
def nearestWeekday (y : ℤ) (m : ℕ) (day : ℕ) : ℕ :=
  let lastDay := lastDayOfMonth y m
  let day := if lastDay < day then lastDay else day
  let wd := weekdayOf y m day
  if wd = 6 then (if 1 < day then day - 1 else day + 2)
  else if wd = 0 then (if day < lastDay then day + 1 else day - 2)
  else day

/-- `Scheduler.lastWeekdayOccurrence`: walk backward from the last day of
the month until the target weekday is hit. -/
def lastOccurrenceWalk (y : ℤ) (m : ℕ) (target : ℕ) : ℕ → ℕ
  | 0 => 0
  | d + 1 => if weekdayOf y m (d + 1) = target then d + 1 else lastOccurrenceWalk y m target d

def lastWeekdayOccurrence (y : ℤ) (m : ℕ) (target : ℕ) : ℕ :=
  lastOccurrenceWalk y m target (lastDayOfMonth y m)

/-- First day `≥ start` of the month whose weekday equals `target`.  The
Go loop walks forward one day at a time; weekdays cycle with period 7, so
fuel 7 makes the recursion structural without changing the result. -/
def firstWeekdayFrom (y : ℤ) (m : ℕ) (target : ℕ) : ℕ → ℕ → ℕ
  | 0, d => d
  | fuel + 1, d => if weekdayOf y m d = target then d else firstWeekdayFrom y m target fuel (d + 1)

/-- `Scheduler.nthWeekdayOfMonth`: day of the `n`-th occurrence of
`target` in the month, or 0 when that occurrence does not exist.  The Go
code adds `(n-1)` weeks to the first occurrence and tests whether the
resulting `time.Time` is still in the same month; since the candidate is
at most `7 + 7*4 = 35`, that test is exactly a comparison against the
month's last day. -/
def nthWeekdayOfMonth (y : ℤ) (m : ℕ) (target n : ℕ) : ℕ :=
  let firstOcc := firstWeekdayFrom y m target 7 1
  let candidate : ℤ := (firstOcc : ℤ) + ((n : ℤ) - 1) * 7
  if candidate < 1 ∨ (lastDayOfMonth y m : ℤ) < candidate then 0 else candidate.toNat


/-! ## Field types, bounds and errors (errors.go) -/

inductive FieldType where
  | second | minute | hour | dayOfMonth | month | dayOfWeek
deriving DecidableEq, Repr

/-- The `fieldBounds` table. -/
def fieldMin : FieldType → ℕ
  | .second => 0 | .minute => 0 | .hour => 0
  | .dayOfMonth => 1 | .month => 1 | .dayOfWeek => 0

def fieldMax : FieldType → ℕ
  | .second => 59 | .minute => 59 | .hour => 23
  | .dayOfMonth => 31 | .month => 12 | .dayOfWeek => 6

/-- The error taxonomy of errors.go: the sentinel errors, `ParseError`,
`FieldError`, `RangeError` and `StepError`.  Each constructor carries the
context the Go type carries (string payloads are kept as character lists,
the representation used throughout the embedding). -/
inductive CronError where
  | emptyExpression
  | invalidFieldCount
  | noNextRun
  | noPreviousRun
  | parseError (expression field value reason : List Char)
  | fieldError (field : FieldType) (value : List Char) (lo hi : ℕ) (reason : List Char)
  | rangeError (field : FieldType) (start stop : ℤ)
  | stepError (field : FieldType) (step : ℤ)
deriving DecidableEq, Repr

/-- `NewFieldError`: a `FieldError` populated with the field's bounds. -/
def NewFieldError (ft : FieldType) (value : List Char) (reason : String) : CronError :=
  .fieldError ft value (fieldMin ft) (fieldMax ft) reason.data

/-! ## Value sets

Go stores a field's values in a `map[int]bool`; the embedding uses a
duplicate-free list with idempotent insertion, giving the same membership
and size semantics. -/

/-- Idempotent insertion (`field.Values[v] = true`). -/
def insertVal (l : List ℕ) (v : ℕ) : List ℕ := if v ∈ l then l else l ++ [v]

/-! ## Field (fields.go) -/

/-- A parsed cron field: its type, its value set and the raw token. -/
structure Field where
  type : FieldType
  values : List ℕ
  raw : List Char
deriving DecidableEq

def Field.Contains (f : Field) (value : ℕ) : Bool := value ∈ f.values

/-- `Field.All`: the values inside the field's natural bounds, ascending. -/
def Field.All (f : Field) : List ℕ :=
  ((List.range (fieldMax f.type + 1)).drop (fieldMin f.type)).filter (· ∈ f.values)

/-- `Field.IsAll`: the Go code compares the size of the value set
(`len(f.Values)`) with the size of the natural domain. -/
def Field.IsAll (f : Field) : Bool :=
  f.values.length = fieldMax f.type - fieldMin f.type + 1

/-! ## String helpers mirroring Go's strings/strconv usage

All Go string manipulation in this package is over ASCII tokens split at
single-character separators, embedded here as structurally recursive
functions on character lists. -/

/-- Whitespace in the sense of `unicode.IsSpace` restricted to ASCII
(space, tab, newline, vertical tab, form feed, carriage return). -/
def wsChar (c : Char) : Bool :=
  c.toNat = 32 ∨ c.toNat = 9 ∨ c.toNat = 10 ∨ c.toNat = 11 ∨ c.toNat = 12 ∨ c.toNat = 13

/-- Go `strings.TrimSpace`. -/
def trimStr (s : List Char) : List Char :=
  ((s.dropWhile wsChar).reverse.dropWhile wsChar).reverse

/-- ASCII upcasing of one character (the tokens this package handles are
ASCII, on which Go's `strings.ToUpper` acts letterwise). -/
def upChar (c : Char) : Char :=
  if 97 ≤ c.toNat ∧ c.toNat ≤ 122 then Char.ofNat (c.toNat - 32) else c

/-- ASCII downcasing of one character. -/
def downChar (c : Char) : Char :=
  if 65 ≤ c.toNat ∧ c.toNat ≤ 90 then Char.ofNat (c.toNat + 32) else c

/-- Go `strings.ToUpper` (ASCII). -/
def toUpperStr (s : List Char) : List Char := s.map upChar

/-- Go `strings.ToLower` (ASCII). -/
def toLowerStr (s : List Char) : List Char := s.map downChar

/-- Go `strings.Split(s, sep)` for a one-character separator. -/
def splitChar (sep : Char) : List Char → List (List Char)
  | [] => [[]]
  | c :: rest =>
      let parts := splitChar sep rest
      if c = sep then [] :: parts
      else
        match parts with
        | [] => [[c]]
        | p :: ps => (c :: p) :: ps

/-- Go `strings.SplitN(s, sep, 2)` for a one-character separator. -/
def splitN2 (s : List Char) (sep : Char) : List (List Char) :=
  match splitChar sep s with
  | [] => [s]
  | [x] => [x]
  | x :: rest => [x, (rest.map (sep :: ·)).flatten.drop 1]

/-- Go `strings.Fields`: split around runs of whitespace. -/
def goFields (s : List Char) : List (List Char) :=
  (splitChar ' ' (s.map (fun c => if wsChar c then ' ' else c))).filter (· ≠ [])


def digitsToNat (ds : List Char) : ℕ :=
  ds.foldl (fun acc c => acc * 10 + (c.toNat - 48)) 0

def isDigitChar (c : Char) : Bool := 48 ≤ c.toNat ∧ c.toNat ≤ 57

/-- Go `strconv.Atoi`: optional sign followed by decimal digits.
(The model has unbounded integers, so Atoi's overflow error cannot
trigger.) -/
def atoi (cs : List Char) : Option ℤ :=
  let (sign, ds) : ℤ × List Char :=
    match cs with
    | '-' :: rest => (-1, rest)
    | '+' :: rest => (1, rest)
    | _ => (1, cs)
  if ds = [] then none
  else if ds.all isDigitChar then some (sign * digitsToNat ds) else none


/-- The `monthNames` table. -/
def monthNames (s : List Char) : Option ℕ :=
  if s = "JAN".data ∨ s = "JANUARY".data then some 1
  else if s = "FEB".data ∨ s = "FEBRUARY".data then some 2
  else if s = "MAR".data ∨ s = "MARCH".data then some 3
  else if s = "APR".data ∨ s = "APRIL".data then some 4
  else if s = "MAY".data then some 5
  else if s = "JUN".data ∨ s = "JUNE".data then some 6
  else if s = "JUL".data ∨ s = "JULY".data then some 7
  else if s = "AUG".data ∨ s = "AUGUST".data then some 8
  else if s = "SEP".data ∨ s = "SEPTEMBER".data then some 9
  else if s = "OCT".data ∨ s = "OCTOBER".data then some 10
  else if s = "NOV".data ∨ s = "NOVEMBER".data then some 11
  else if s = "DEC".data ∨ s = "DECEMBER".data then some 12
  else none

/-- The `dayNames` table. -/
def dayNames (s : List Char) : Option ℕ :=
  if s = "SUN".data ∨ s = "SUNDAY".data then some 0
  else if s = "MON".data ∨ s = "MONDAY".data then some 1
  else if s = "TUE".data ∨ s = "TUESDAY".data then some 2
  else if s = "WED".data ∨ s = "WEDNESDAY".data then some 3
  else if s = "THU".data ∨ s = "THURSDAY".data then some 4
  else if s = "FRI".data ∨ s = "FRIDAY".data then some 5
  else if s = "SAT".data ∨ s = "SATURDAY".data then some 6
  else none

/-! ## FieldParser (fields.go) -/

/-- `FieldParser.parseValue`: named month/weekday lookup (after upcasing
and trimming), falling back to `strconv.Atoi`. -/
def parseValue (ft : FieldType) (s : List Char) : Except CronError ℤ :=
  let s := toUpperStr (trimStr s)
  match ft, monthNames s, dayNames s with
  | .month, some v, _ => .ok v
  | .dayOfWeek, _, some v => .ok v
  | _, _, _ =>
    match atoi s with
    | some v => .ok v
    | none => .error (NewFieldError ft s "invalid value")

/-- `FieldParser.validateValue`. -/
def validateValue (ft : FieldType) (value : ℤ) (original : List Char) : Except CronError Unit :=
  if value < fieldMin ft ∨ (fieldMax ft : ℤ) < value then
    .error (NewFieldError ft original "value out of range")
  else .ok ()

/-- `FieldParser.addRange`: insert `start, start+step, ...` into the value
set while `≤ stop`.  The Go loop is only reached with `step ≥ 1` (`Parse`
passes 1 and `parseStep` rejects non-positive steps), which bounds its
iteration count by `stop + 1 - start`; that bound is the structural fuel
here. -/
def addRangeAux (stop step : ℕ) : ℕ → ℕ → List ℕ → List ℕ
  | 0, _, vals => vals
  | fuel + 1, i, vals =>
      if i ≤ stop then addRangeAux stop step fuel (i + step) (insertVal vals i) else vals

def addRange (vals : List ℕ) (start stop step : ℕ) : List ℕ :=
  addRangeAux stop step (stop + 1 - start) start vals


/-- `FieldParser.isNamedValue`. -/
def isNamedValue (ft : FieldType) (part : List Char) : Bool :=
  let upper := toUpperStr (trimStr part)
  match ft with
  | .month => (monthNames upper).isSome
  | .dayOfWeek => (dayNames upper).isSome
  | _ => false

/-- `FieldParser.hasSpecialChars`. -/
def hasSpecialChars (ft : FieldType) (part : List Char) : Bool :=
  let upper := toUpperStr part
  match ft with
  | .dayOfMonth =>
      upper = "L".data || upper = "LW".data || upper.getLast? = some 'W' ||
        upper.head? = some 'L'
  | .dayOfWeek => upper.getLast? = some 'L' || upper.contains '#'
  | _ => false

/-- `FieldParser.parseSingle`: parse, validate and insert one value. -/
def parseSingle (ft : FieldType) (vals : List ℕ) (part : List Char) :
    Except CronError (List ℕ) := do
  let value ← parseValue ft part
  let _ ← validateValue ft value part
  return insertVal vals value.toNat

/-- `FieldParser.parseRange`. -/
def parseRange (ft : FieldType) (vals : List ℕ) (part : List Char) :
    Except CronError (List ℕ) := do
  match splitN2 part '-' with
  | [s0, s1] => do
    let start ← parseValue ft s0
    let stop ← parseValue ft s1
    let _ ← validateValue ft start s0
    let _ ← validateValue ft stop s1
    if stop < start then
      throw (.rangeError ft start stop)
    else
      return addRange vals start.toNat stop.toNat 1
  | _ => throw (NewFieldError ft part "invalid range format")

/-- `FieldParser.parseStep`. -/
def parseStep (ft : FieldType) (vals : List ℕ) (part : List Char) :
    Except CronError (List ℕ) := do
  match splitN2 part '/' with
  | [baseExpr, stepStr] => do
    let step ← match atoi stepStr with
      | some v => pure v
      | none => throw (NewFieldError ft stepStr "step must be a number")
    if step ≤ 0 then
      throw (.stepError ft step)
    else if baseExpr = "*".data then
      return addRange vals (fieldMin ft) (fieldMax ft) step.toNat
    else if baseExpr.contains '-' then
      match splitN2 baseExpr '-' with
      | [s0, s1] => do
        let start ← parseValue ft s0
        let stop ← parseValue ft s1
        let _ ← validateValue ft start s0
        let _ ← validateValue ft stop s1
        if stop < start then
          throw (.rangeError ft start stop)
        else
          return addRange vals start.toNat stop.toNat step.toNat
      | _ => throw (NewFieldError ft baseExpr "invalid range format")
    else do
      let start ← parseValue ft baseExpr
      let _ ← validateValue ft start baseExpr
      return addRange vals start.toNat (fieldMax ft) step.toNat
  | _ => throw (NewFieldError ft part "invalid step format")

/-- `FieldParser.parseDayOfMonthSpecial` (the argument arrives upcased). -/
def parseDayOfMonthSpecial (ft : FieldType) (vals : List ℕ) (part : List Char) :
    Except CronError (List ℕ) :=
  if part = "L".data then .ok (insertVal vals 32)
  else if part = "LW".data then .ok (insertVal vals 33)
  else if part.take 2 = "L-".data then
    match atoi (part.drop 2) with
    | some offset =>
        if offset < 0 ∨ 30 < offset then .error (NewFieldError ft part "invalid L-N format")
        else .ok (insertVal vals (32 + offset.toNat))
    | none => .error (NewFieldError ft part "invalid L-N format")
  else if part.getLast? = some 'W' then
    match atoi part.dropLast with
    | some day =>
        if day < 1 ∨ 31 < day then .error (NewFieldError ft part "day must be between 1 and 31")
        else .ok (insertVal vals (100 + day.toNat))
    | none => .error (NewFieldError ft part "invalid NW format")
  else .error (NewFieldError ft part "unrecognized special character combination")

/-- `FieldParser.parseDayOfWeekSpecial` (the argument arrives upcased). -/
def parseDayOfWeekSpecial (ft : FieldType) (vals : List ℕ) (part : List Char) :
    Except CronError (List ℕ) :=
  if part.getLast? = some 'L' then do
    let day ← parseValue ft part.dropLast
    if day < 0 ∨ 6 < day then
      throw (NewFieldError ft part "day must be between 0 and 6")
    else
      return insertVal vals (10 + day.toNat)
  else if part.contains '#' then
    match splitN2 part '#' with
    | [s0, s1] => do
      let day ← parseValue ft s0
      if day < 0 ∨ 6 < day then
        throw (NewFieldError ft part "day must be between 0 and 6")
      else
        match atoi s1 with
        | some occ =>
            if occ < 1 ∨ 5 < occ then
              throw (NewFieldError ft part "occurrence must be between 1 and 5")
            else
              return insertVal vals (20 + day.toNat * 10 + occ.toNat)
        | none => throw (NewFieldError ft part "occurrence must be between 1 and 5")
    | _ => throw (NewFieldError ft part "invalid N#M format")
  else throw (NewFieldError ft part "unrecognized special character combination")

/-- `FieldParser.parseSpecial`. -/
def parseSpecial (ft : FieldType) (vals : List ℕ) (part : List Char) :
    Except CronError (List ℕ) :=
  let upperPart := toUpperStr part
  match ft with
  | .dayOfMonth => parseDayOfMonthSpecial ft vals upperPart
  | .dayOfWeek => parseDayOfWeekSpecial ft vals upperPart
  | _ => .error (NewFieldError ft part "special characters L, W, # not allowed in this field")

/-- `FieldParser.parsePart`: the classification order of the Go code —
step, then range (with the L-N carve-out), then named value, then special
characters, then plain single value. -/
def parsePart (ft : FieldType) (vals : List ℕ) (part : List Char) :
    Except CronError (List ℕ) :=
  if part.contains '/' then parseStep ft vals part
  else if part.contains '-' then
    if (toUpperStr part).take 2 = "L-".data ∧ ft = .dayOfMonth then parseSpecial ft vals part
    else parseRange ft vals part
  else if isNamedValue ft part then parseSingle ft vals part
  else if hasSpecialChars ft part then parseSpecial ft vals part
  else parseSingle ft vals part

/-- The loop of `FieldParser.Parse` over comma-separated parts, with the
Go loop's fail-fast error propagation and skipping of empty parts. -/
def parseParts (ft : FieldType) : List ℕ → List (List Char) → Except CronError (List ℕ)
  | vals, [] => .ok vals
  | vals, part :: rest =>
      let part := trimStr part
      if part = [] then parseParts ft vals rest
      else
        match parsePart ft vals part with
        | .ok vals => parseParts ft vals rest
        | .error e => .error e

/-- `FieldParser.Parse`: wildcard handling, comma-splitting, and the
empty-set check. -/
def FieldParser.Parse (ft : FieldType) (expr : List Char) : Except CronError Field := do
  if expr = [] then
    throw (NewFieldError ft expr "field cannot be empty")
  else if expr = "*".data ∨ expr = "?".data then
    return ⟨ft, addRange [] (fieldMin ft) (fieldMax ft) 1, expr⟩
  else do
    let vals ← parseParts ft [] (splitChar ',' expr)
    if vals = [] then
      throw (NewFieldError ft expr "no valid values found")
    else
      return ⟨ft, vals, expr⟩

instance {ε α : Type} [DecidableEq ε] [DecidableEq α] : DecidableEq (Except ε α) := fun a b =>
  match a, b with
  | .error x, .error y =>
      if h : x = y then .isTrue (by rw [h]) else .isFalse (by simp [h])
  | .ok x, .ok y =>
      if h : x = y then .isTrue (by rw [h]) else .isFalse (by simp [h])
  | .error _, .ok _ => .isFalse (by simp)
  | .ok _, .error _ => .isFalse (by simp)

/-! ## Expression and parseCron (cron.go) -/

inductive ExpressionType where
  | StandardCron
  | ExtendedCron
deriving DecidableEq, Repr

/-- The parsed cron expression: the six fields, the raw-string echo, the
form tag, and the five special-day flags derived at construction. -/
structure Expression where
  Raw : List Char
  /-- the Go field is named `Type`, a keyword in Lean -/
  ExprType : ExpressionType
  Second : Field
  Minute : Field
  Hour : Field
  DayOfMonth : Field
  Month : Field
  DayOfWeek : Field
  HasLastDayOfMonth : Bool
  HasLastWeekday : Bool
  HasNearestWeekday : Bool
  HasNthDayOfWeek : Bool
  HasLastDayOfWeek : Bool
deriving DecidableEq

instance : Inhabited Expression :=
  ⟨⟨[], .StandardCron, ⟨.second, [], []⟩, ⟨.minute, [], []⟩, ⟨.hour, [], []⟩,
    ⟨.dayOfMonth, [], []⟩, ⟨.month, [], []⟩, ⟨.dayOfWeek, [], []⟩,
    false, false, false, false, false⟩⟩

/-- The `predefinedExpressions` table. -/
def predefinedExpressions (s : List Char) : Option (List Char) :=
  if s = "@yearly".data then some "0 0 1 1 *".data
  else if s = "@annually".data then some "0 0 1 1 *".data
  else if s = "@monthly".data then some "0 0 1 * *".data
  else if s = "@weekly".data then some "0 0 * * 0".data
  else if s = "@daily".data then some "0 0 * * *".data
  else if s = "@midnight".data then some "0 0 * * *".data
  else if s = "@hourly".data then some "0 * * * *".data
  else none

/-- `Expression.detectSpecialFlags`, as a function of the two day fields'
value sets (the Go method scans them once and sets the five flags). -/
def detectSpecialFlags (dom dow : List ℕ) : Bool × Bool × Bool × Bool × Bool :=
  (decide (32 ∈ dom),
   decide (33 ∈ dom),
   decide (∃ v ∈ dom, 101 ≤ v ∧ v ≤ 131),
   decide (∃ v ∈ dow, 21 ≤ v ∧ v ≤ 75),
   decide (∃ v ∈ dow, 10 ≤ v ∧ v ≤ 16))

/-- `parseCron`: trim, expand predefined names, split into whitespace
fields, enforce the 5/6 field count, parse each field fail-fast, then
derive the special flags.  The `seconds` flag mirrors the Go
`cronParser.seconds` option, which `parseCron` never reads. -/
def parseCron (raw : String) (seconds : Bool := false) : Except CronError Expression := do
  let _ := seconds
  let expr := trimStr raw.data
  if expr = [] then
    throw .emptyExpression
  else do
    let expr ←
      if expr.head? = some '@' then
        match predefinedExpressions (toLowerStr expr) with
        | some predefined => pure predefined
        | none => throw (.parseError expr [] [] "unknown predefined expression".data)
      else pure expr
    let fields := goFields expr
    let fieldCount := fields.length
    if fieldCount < 5 ∨ 6 < fieldCount then
      throw .invalidFieldCount
    else do
      let exprType := if fieldCount = 6 then ExpressionType.ExtendedCron
                      else ExpressionType.StandardCron
      let secondExpr := if fieldCount = 6 then fields.getD 0 [] else "0".data
      let minuteExpr := if fieldCount = 6 then fields.getD 1 [] else fields.getD 0 []
      let hourExpr := if fieldCount = 6 then fields.getD 2 [] else fields.getD 1 []
      let domExpr := if fieldCount = 6 then fields.getD 3 [] else fields.getD 2 []
      let monthExpr := if fieldCount = 6 then fields.getD 4 [] else fields.getD 3 []
      let dowExpr := if fieldCount = 6 then fields.getD 5 [] else fields.getD 4 []
      let secondF ← FieldParser.Parse .second secondExpr
      let minuteF ← FieldParser.Parse .minute minuteExpr
      let hourF ← FieldParser.Parse .hour hourExpr
      let domF ← FieldParser.Parse .dayOfMonth domExpr
      let monthF ← FieldParser.Parse .month monthExpr
      let dowF ← FieldParser.Parse .dayOfWeek dowExpr
      let (l, lw, nw, nth, ldow) := detectSpecialFlags domF.values dowF.values
      return ⟨expr, exprType, secondF, minuteF, hourF, domF, monthF, dowF,
              l, lw, nw, nth, ldow⟩

/-- The public `Parse`. -/
def Parse (expr : String) : Except CronError Expression := parseCron expr

/-- The public `ParseWithSeconds`: `parseCron` with the (unread) seconds
option set. -/
def ParseWithSeconds (expr : String) : Except CronError Expression := parseCron expr true

/-- `Expression.HasSpecialDayHandling`. -/
def Expression.HasSpecialDayHandling (e : Expression) : Bool :=
  e.HasLastDayOfMonth || e.HasLastWeekday || e.HasNearestWeekday ||
    e.HasNthDayOfWeek || e.HasLastDayOfWeek

/-- `Expression.Matches`: the pure matcher predicate on a decomposed
instant.  Note it uses only plain containment and the `IsAll`-based OR
policy — it does not consult the special-day flags. -/
def Expression.Matches (e : Expression) (second minute hour day month weekday : ℕ) : Bool :=
  if ¬ e.Second.Contains second then false
  else if ¬ e.Minute.Contains minute then false
  else if ¬ e.Hour.Contains hour then false
  else if ¬ e.Month.Contains month then false
  else
    let domMatch := e.DayOfMonth.Contains day
    let dowMatch := e.DayOfWeek.Contains weekday
    if e.DayOfMonth.IsAll ∧ e.DayOfWeek.IsAll then true
    else if e.DayOfMonth.IsAll then dowMatch
    else if e.DayOfWeek.IsAll then domMatch
    else domMatch || dowMatch

/-! ## Scheduler (scheduler.go), with the default `time.UTC` location -/

/-- `DefaultMaxIterations` (one year of minutes). -/
def DefaultMaxIterations : ℕ := 366 * 24 * 60

/-- `DefaultSearchYears`. -/
def DefaultSearchYears : ℤ := 5

/-- `Scheduler.matchesSpecialDay`: the L / L-N / LW / NW / NL / N#M
checks in the Go order, then the standard fallback.  Go returns `true`
from the first branch that fires, which is this boolean disjunction; the
`for v := range Values` loops become bounded existentials over the value
set. -/
def matchesSpecialDay (e : Expression) (t : DateTime) : Bool :=
  let day := t.day
  let weekday := weekdayOf t.year t.month t.day
  let lastDay := lastDayOfMonth t.year t.month
  -- "L" — last day of month
  ((e.HasLastDayOfMonth && e.DayOfMonth.Contains 32) && decide (day = lastDay)) ||
  -- "L-N" — Nth day before end of month
  decide (∃ v ∈ e.DayOfMonth.values, 32 < v ∧ v < 100 ∧
    0 < (lastDay : ℤ) - ((v : ℤ) - 32) ∧ (day : ℤ) = (lastDay : ℤ) - ((v : ℤ) - 32)) ||
  -- "LW" — last weekday of month
  ((e.HasLastWeekday && e.DayOfMonth.Contains 33) &&
    decide (day = lastWeekdayOfMonth t.year t.month)) ||
  -- "NW" — nearest weekday to day N
  (e.HasNearestWeekday && decide (∃ v ∈ e.DayOfMonth.values, 101 ≤ v ∧ v ≤ 131 ∧
    day = nearestWeekday t.year t.month (v - 100))) ||
  -- "NL" — last occurrence of weekday W
  (e.HasLastDayOfWeek && decide (∃ v ∈ e.DayOfWeek.values, 10 ≤ v ∧ v ≤ 16 ∧
    day = lastWeekdayOccurrence t.year t.month (v - 10) ∧ weekday = v - 10)) ||
  -- "N#M" — Mth occurrence of weekday N
  (e.HasNthDayOfWeek && decide (∃ v ∈ e.DayOfWeek.values, 21 ≤ v ∧ v ≤ 75 ∧
    0 < nthWeekdayOfMonth t.year t.month ((v - 20) / 10) ((v - 20) % 10) ∧
    day = nthWeekdayOfMonth t.year t.month ((v - 20) / 10) ((v - 20) % 10) ∧
    weekday = (v - 20) / 10)) ||
  -- fall back to standard matching if no special matched
  (let domMatch := e.DayOfMonth.Contains day
   let dowMatch := e.DayOfWeek.Contains weekday
   if e.DayOfMonth.IsAll ∧ e.DayOfWeek.IsAll then true
   else if e.DayOfMonth.IsAll then dowMatch
   else if e.DayOfWeek.IsAll then domMatch
   else domMatch || dowMatch)

/-- `Scheduler.matchesDay`. -/
def matchesDay (e : Expression) (t : DateTime) : Bool :=
  if e.HasSpecialDayHandling then matchesSpecialDay e t
  else
    let domMatch := e.DayOfMonth.Contains t.day
    let dowMatch := e.DayOfWeek.Contains (weekdayOf t.year t.month t.day)
    if e.DayOfMonth.IsAll ∧ e.DayOfWeek.IsAll then true
    else if e.DayOfMonth.IsAll then dowMatch
    else if e.DayOfWeek.IsAll then domMatch
    else domMatch || dowMatch

/-- `Scheduler.nextMonth`'s scan: advance the month (wrapping the year) up
to 12 times, stopping at the first month the Month field accepts; the
fuel-0 case is Go's fallback `Date(year+1, January, 1, ...)` with the
year variable already advanced by the scan. -/
def nextMonthAux (e : Expression) : ℕ → ℤ → ℕ → ℤ × ℕ
  | 0, year, _ => (year + 1, 1)
  | i + 1, year, month =>
      let year1 : ℤ := if 12 < month + 1 then year + 1 else year
      let month1 : ℕ := if 12 < month + 1 then 1 else month + 1
      if e.Month.Contains month1 then (year1, month1) else nextMonthAux e i year1 month1

def nextMonth (e : Expression) (t : DateTime) : DateTime :=
  let (y, m) := nextMonthAux e 12 t.year t.month
  ⟨y, m, 1, 0, 0, 0⟩

/-- `Scheduler.prevMonth`'s scan (mirror of `nextMonthAux`); the fuel-0
case is Go's fallback `Date(year-1, December, 31, 23, 59, 59)` with the
year variable already moved back by the scan. -/
def prevMonthAux (e : Expression) : ℕ → ℤ → ℕ → ℤ × ℕ
  | 0, year, _ => (year - 1, 12)
  | i + 1, year, month =>
      let year1 : ℤ := if month - 1 < 1 then year - 1 else year
      let month1 : ℕ := if month - 1 < 1 then 12 else month - 1
      if e.Month.Contains month1 then (year1, month1) else prevMonthAux e i year1 month1

def prevMonth (e : Expression) (t : DateTime) : DateTime :=
  let (y, m) := prevMonthAux e 12 t.year t.month
  ⟨y, m, lastDayOfMonth y m, 23, 59, 59⟩

/-- `Scheduler.nextDay`. -/
def nextDay (t : DateTime) : DateTime :=
  mkDate t.year t.month ((t.day : ℤ) + 1) 0 0 0

/-- `Scheduler.prevDay`. -/
def prevDay (t : DateTime) : DateTime :=
  mkDate t.year t.month ((t.day : ℤ) - 1) 23 59 59

/-- `Scheduler.nextHour`. -/
def nextHour (t : DateTime) : DateTime :=
  mkDate t.year t.month t.day ((t.hour : ℤ) + 1) 0 0

/-- `Scheduler.prevHour`. -/
def prevHour (t : DateTime) : DateTime :=
  mkDate t.year t.month t.day ((t.hour : ℤ) - 1) 59 59

/-- `Scheduler.nextMinute`. -/
def nextMinute (t : DateTime) : DateTime :=
  mkDate t.year t.month t.day t.hour ((t.minute : ℤ) + 1) 0

/-- `Scheduler.prevMinute`. -/
def prevMinute (t : DateTime) : DateTime :=
  mkDate t.year t.month t.day t.hour ((t.minute : ℤ) - 1) 59

/-- `Scheduler.nextSecond`. -/
def nextSecond (t : DateTime) : DateTime := t.addSecond

/-- `Scheduler.prevSecond`. -/
def prevSecond (t : DateTime) : DateTime := t.subSecond

/-- `Scheduler.alignToNextMonth`. -/
def alignToNextMonth (e : Expression) (t : DateTime) : DateTime :=
  if ¬ e.Month.Contains t.month then nextMonth e t else t

/-- The `for t.Before(maxTime)` loop of `Scheduler.findNextMatch`.  The Go
loop has no counter; every jump strictly advances the integer-second
cursor (proved below), so the loop runs at most `maxTime - t` seconds'
worth of iterations and a fuel of that size reproduces it exactly. -/
def searchLoop (e : Expression) (maxTime : DateTime) : ℕ → DateTime → Option DateTime
  | 0, _ => none
  | fuel + 1, t =>
      if t.before maxTime then
        if ¬ e.Month.Contains t.month then searchLoop e maxTime fuel (nextMonth e t)
        else if ¬ matchesDay e t then searchLoop e maxTime fuel (nextDay t)
        else if ¬ e.Hour.Contains t.hour then searchLoop e maxTime fuel (nextHour t)
        else if ¬ e.Minute.Contains t.minute then searchLoop e maxTime fuel (nextMinute t)
        else if ¬ e.Second.Contains t.second then searchLoop e maxTime fuel (nextSecond t)
        else some t
      else none

/-- Fuel sufficient for `searchLoop` between `t` and `maxTime`. -/
def searchFuel (t maxTime : DateTime) : ℕ := (maxTime.absSec - t.absSec).toNat + 1

/-- `Scheduler.findNextMatch`: align to a valid month once, give up if
that overshoots the horizon, then run the search loop. -/
def findNextMatch (e : Expression) (t maxTime : DateTime) : Option DateTime :=
  if (alignToNextMonth e t).after maxTime then none
  else searchLoop e maxTime (searchFuel (alignToNextMonth e t) maxTime) (alignToNextMonth e t)

/-- The `for t.After(minTime)` loop of `Scheduler.findPrevMatch`. -/
def searchLoopPrev (e : Expression) (minTime : DateTime) : ℕ → DateTime → Option DateTime
  | 0, _ => none
  | fuel + 1, t =>
      if t.after minTime then
        if ¬ e.Month.Contains t.month then searchLoopPrev e minTime fuel (prevMonth e t)
        else if ¬ matchesDay e t then searchLoopPrev e minTime fuel (prevDay t)
        else if ¬ e.Hour.Contains t.hour then searchLoopPrev e minTime fuel (prevHour t)
        else if ¬ e.Minute.Contains t.minute then searchLoopPrev e minTime fuel (prevMinute t)
        else if ¬ e.Second.Contains t.second then searchLoopPrev e minTime fuel (prevSecond t)
        else some t
      else none

def searchFuelPrev (t minTime : DateTime) : ℕ := (t.absSec - minTime.absSec).toNat + 1

/-- `Scheduler.findPrevMatch`. -/
def findPrevMatch (e : Expression) (t minTime : DateTime) : Option DateTime :=
  searchLoopPrev e minTime (searchFuelPrev t minTime) t

/-- The outer loop of `Scheduler.NextN`; its fuel is Go's own iteration
counter bound `DefaultMaxIterations*60`. -/
def nextNAux (e : Expression) (maxTime : DateTime) : ℕ → DateTime → ℤ → Except CronError DateTime
  | 0, _, _ => .error .noNextRun
  | rem + 1, t, n =>
      if t.before maxTime then
        match findNextMatch e t maxTime with
        | none => .error .noNextRun
        | some next =>
            if n - 1 ≤ 0 then .ok next
            else nextNAux e maxTime rem next.addSecond (n - 1)
      else .error .noNextRun

/-- `Scheduler.NextN`: clamp `n`, advance the cursor to the start of the
next second (`Add(time.Second)` then `Truncate(time.Second)`), set the
5-year horizon, and run the bounded loop. -/
def NextN (e : Expression) (fromT : Instant) (n : ℤ) : Except CronError DateTime :=
  let n := if n < 1 then 1 else n
  let t := fromT.dt.addSecond
  let maxTime := t.addYears DefaultSearchYears
  nextNAux e maxTime (DefaultMaxIterations * 60) t n

/-- `Scheduler.Next`. -/
def Next (e : Expression) (fromT : Instant) : Except CronError DateTime :=
  NextN e fromT 1

/-- The outer loop of `Scheduler.PreviousN`. -/
def previousNAux (e : Expression) (minTime : DateTime) :
    ℕ → DateTime → ℤ → Except CronError DateTime
  | 0, _, _ => .error .noPreviousRun
  | rem + 1, t, n =>
      if t.after minTime then
        match findPrevMatch e t minTime with
        | none => .error .noPreviousRun
        | some prev =>
            if n - 1 ≤ 0 then .ok prev
            else previousNAux e minTime rem prev.subSecond (n - 1)
      else .error .noPreviousRun

/-- `Scheduler.PreviousN`. -/
def PreviousN (e : Expression) (fromT : Instant) (n : ℤ) : Except CronError DateTime :=
  let n := if n < 1 then 1 else n
  let t := fromT.dt.subSecond
  let minTime := t.addYears (-DefaultSearchYears)
  previousNAux e minTime (DefaultMaxIterations * 60) t n

/-- `Scheduler.Previous`. -/
def Previous (e : Expression) (fromT : Instant) : Except CronError DateTime :=
  PreviousN e fromT 1

/-- The loop of `Scheduler.NextNTimes` (after the `n <= 0` early return). -/
def nextNTimesAux (e : Expression) : ℕ → Instant → List DateTime → Except CronError (List DateTime)
  | 0, _, results => .ok results.reverse
  | k + 1, t, results =>
      match Next e t with
      | .error err => if results ≠ [] then .ok results.reverse else .error err
      | .ok next => nextNTimesAux e k next.toInstant (next :: results)

/-- `Scheduler.NextNTimes`: `n <= 0` returns the nil slice with nil error. -/
def NextNTimes (e : Expression) (fromT : Instant) (n : ℤ) : Except CronError (List DateTime) :=
  if n ≤ 0 then .ok []
  else nextNTimesAux e n.toNat fromT []

/-- The loop of `Scheduler.PreviousNTimes`. -/
def previousNTimesAux (e : Expression) :
    ℕ → Instant → List DateTime → Except CronError (List DateTime)
  | 0, _, results => .ok results.reverse
  | k + 1, t, results =>
      match Previous e t with
      | .error err => if results ≠ [] then .ok results.reverse else .error err
      | .ok prev => previousNTimesAux e k prev.toInstant (prev :: results)

/-- `Scheduler.PreviousNTimes`: `n <= 0` returns the nil slice with nil
error. -/
def PreviousNTimes (e : Expression) (fromT : Instant) (n : ℤ) : Except CronError (List DateTime) :=
  if n ≤ 0 then .ok []
  else previousNTimesAux e n.toNat fromT []

/-- `Scheduler.IsDue`: decompose the instant in the scheduler's zone and
call the matcher directly (sub-second precision is dropped by the
`Second()` accessor). -/
def IsDue (e : Expression) (t : Instant) : Bool :=
  e.Matches t.dt.second t.dt.minute t.dt.hour t.dt.day t.dt.month
    (weekdayOf t.dt.year t.dt.month t.dt.day)

/-! ## Helper definitions for stating the claims -/

/-- Convenience accessor for a known-good expression (used to state
concrete claims). -/
def getExpr (s : String) : Expression := (parseCron s).toOption.getD default

/-- Convenience accessor for a known-good field (used to state concrete
claims). -/
def getField (ft : FieldType) (s : String) : Field :=
  (FieldParser.Parse ft s.data).toOption.getD ⟨ft, [], []⟩

/-- Natural-domain coverage, the spec's phrase "covers all natural
values": the value set contains every value of the field's natural
domain.  (This differs from the code's size-based `Field.IsAll` when
extension codes inflate the set.) -/
def coversAllNaturals (f : Field) : Bool :=
  ((List.range (fieldMax f.type + 1)).drop (fieldMin f.type)).all (· ∈ f.values)

/-- The day OR-policy exactly as claim C4 words it, with "covers all
natural values" read literally.  This is a spec-side definition, written
from the claim's words for comparison against the code's matcher. -/
def dayMatchesSpecC4 (e : Expression) (day weekday : ℕ) : Bool :=
  if coversAllNaturals e.DayOfMonth ∧ coversAllNaturals e.DayOfWeek then true
  else if coversAllNaturals e.DayOfMonth then e.DayOfWeek.Contains weekday
  else if coversAllNaturals e.DayOfWeek then e.DayOfMonth.Contains day
  else e.DayOfMonth.Contains day || e.DayOfWeek.Contains weekday

/-- The amended day OR-policy: as claim C4, but with coverage read as the
code's size-based test (`Field.IsAll`). -/
def dayMatchesAmendedC4 (e : Expression) (day weekday : ℕ) : Bool :=
  if e.DayOfMonth.IsAll ∧ e.DayOfWeek.IsAll then true
  else if e.DayOfMonth.IsAll then e.DayOfWeek.Contains weekday
  else if e.DayOfWeek.IsAll then e.DayOfMonth.Contains day
  else e.DayOfMonth.Contains day || e.DayOfWeek.Contains weekday

/-! ## Calendar lemmas: the day numbering respects calendar succession -/

lemma dayNumber_add_one (y : ℤ) (m : ℕ) (d : ℤ) :
    dayNumber y m (d + 1) = dayNumber y m d + 1 := by
  simp only [dayNumber]; ring

lemma dayNumber_affine (y : ℤ) (m : ℕ) (d : ℤ) :
    dayNumber y m d = dayNumber y m 1 + (d - 1) := by
  simp only [dayNumber]; ring

lemma daysInMonth_ge (y : ℤ) (m : ℕ) (h1 : 1 ≤ m) (h2 : m ≤ 12) :
    28 ≤ daysInMonth y m ∧ daysInMonth y m ≤ 31 := by
  interval_cases m <;> simp [daysInMonth] <;> split <;> omega

lemma dayNumber_succ_month (y : ℤ) (m : ℕ) (h1 : 1 ≤ m) (h2 : m ≤ 11) :
    dayNumber y (m + 1) 1 = dayNumber y m (daysInMonth y m) + 1 := by
  interval_cases m <;>
    simp only [dayNumber, daysInMonth, isLeapYear, Bool.or_eq_true, Bool.and_eq_true,
      decide_eq_true_eq, bne_iff_ne] <;>
    norm_num <;> try split
  all_goals push_cast
  all_goals omega

lemma dayNumber_succ_year (y : ℤ) :
    dayNumber (y + 1) 1 1 = dayNumber y 12 (daysInMonth y 12) + 1 := by
  simp only [dayNumber, daysInMonth]
  norm_num
  omega

/-- One month forward: the next month's first day is strictly after every
day of the current month. -/
lemma dayNumber_lt_monthStart_one (y1 : ℤ) (m1 : ℕ) (y2 : ℤ) (m2 : ℕ) (d1 : ℤ)
    (h1 : 1 ≤ m1) (h2 : m1 ≤ 12) (h3 : 1 ≤ m2) (h4 : m2 ≤ 12)
    (hd : d1 ≤ (daysInMonth y1 m1 : ℤ))
    (heq : 12 * y2 + (m2 : ℤ) = 12 * y1 + (m1 : ℤ) + 1) :
    dayNumber y1 m1 d1 < dayNumber y2 m2 1 := by
  have hle : dayNumber y1 m1 d1 ≤ dayNumber y1 m1 (daysInMonth y1 m1) := by
    rw [dayNumber_affine y1 m1 d1, dayNumber_affine y1 m1 (daysInMonth y1 m1)]
    omega
  rcases Nat.lt_or_ge m1 12 with hm | hm
  · have hy : y2 = y1 := by omega
    have hm2 : m2 = m1 + 1 := by omega
    subst hy; subst hm2
    have hsucc := dayNumber_succ_month y2 m1 h1 (by omega)
    omega
  · have hm1 : m1 = 12 := by omega
    subst hm1
    have hy : y2 = y1 + 1 := by omega
    have hm2 : m2 = 1 := by omega
    subst hy; subst hm2
    have hsucc := dayNumber_succ_year y1
    omega

/-- A strictly later (year, month) pair has a strictly later month-start
day number than any day of the earlier month. -/
lemma dayNumber_lt_monthStart (k : ℕ) : ∀ (y1 : ℤ) (m1 : ℕ) (y2 : ℤ) (m2 : ℕ) (d1 : ℤ),
    1 ≤ m1 → m1 ≤ 12 → 1 ≤ m2 → m2 ≤ 12 → d1 ≤ (daysInMonth y1 m1 : ℤ) →
    12 * y2 + (m2 : ℤ) = 12 * y1 + (m1 : ℤ) + (k + 1) →
    dayNumber y1 m1 d1 < dayNumber y2 m2 1 := by
  induction k with
  | zero =>
      intro y1 m1 y2 m2 d1 h1 h2 h3 h4 hd heq
      exact dayNumber_lt_monthStart_one y1 m1 y2 m2 d1 h1 h2 h3 h4 hd heq
  | succ k ih =>
      intro y1 m1 y2 m2 d1 h1 h2 h3 h4 hd heq
      rcases Nat.lt_or_ge m1 12 with hm | hm
      · have hdim2 := daysInMonth_ge y1 (m1 + 1) (by omega) (by omega)
        have step : dayNumber y1 m1 d1 < dayNumber y1 (m1 + 1) 1 :=
          dayNumber_lt_monthStart_one y1 m1 y1 (m1 + 1) d1 h1 h2 (by omega) (by omega) hd
            (by push_cast; ring)
        have rest : dayNumber y1 (m1 + 1) 1 < dayNumber y2 m2 1 :=
          ih y1 (m1 + 1) y2 m2 1 (by omega) (by omega) h3 h4 (by omega)
            (by push_cast; push_cast at heq; omega)
        omega
      · have hm1 : m1 = 12 := by omega
        subst hm1
        have hdim2 := daysInMonth_ge (y1 + 1) 1 (by omega) (by omega)
        have step : dayNumber y1 12 d1 < dayNumber (y1 + 1) 1 1 :=
          dayNumber_lt_monthStart_one y1 12 (y1 + 1) 1 d1 h1 h2 (by omega) (by omega) hd
            (by push_cast; ring)
        have rest : dayNumber (y1 + 1) 1 1 < dayNumber y2 m2 1 :=
          ih (y1 + 1) 1 y2 m2 1 (by omega) (by omega) h3 h4 (by omega)
            (by push_cast; push_cast at heq; omega)
        omega

/-- Month starts are monotone in the (year, month) order. -/
lemma monthStart_mono (y1 : ℤ) (m1 : ℕ) (y2 : ℤ) (m2 : ℕ)
    (h1 : 1 ≤ m1) (h2 : m1 ≤ 12) (h3 : 1 ≤ m2) (h4 : m2 ≤ 12)
    (hle : 12 * y1 + (m1 : ℤ) ≤ 12 * y2 + (m2 : ℤ)) :
    dayNumber y1 m1 1 ≤ dayNumber y2 m2 1 := by
  rcases eq_or_lt_of_le hle with heq | hlt
  · have hy : y1 = y2 := by omega
    have hm : m1 = m2 := by omega
    subst hy; subst hm; omega
  · have hdim := daysInMonth_ge y1 m1 h1 h2
    have hk : ∃ k : ℕ, 12 * y2 + (m2 : ℤ) = 12 * y1 + (m1 : ℤ) + (k + 1) := by
      refine ⟨(12 * y2 + (m2 : ℤ) - (12 * y1 + (m1 : ℤ)) - 1).toNat, ?_⟩
      omega
    obtain ⟨k, hk⟩ := hk
    exact le_of_lt (dayNumber_lt_monthStart k y1 m1 y2 m2 1 h1 h2 h3 h4 (by omega) hk)

/-- The end of an earlier month is strictly before any day of a later
month. -/
lemma monthEnd_lt_dayNumber (y1 : ℤ) (m1 : ℕ) (y2 : ℤ) (m2 : ℕ) (d2 : ℤ)
    (h1 : 1 ≤ m1) (h2 : m1 ≤ 12) (h3 : 1 ≤ m2) (h4 : m2 ≤ 12) (hd : 1 ≤ d2)
    (hlt : 12 * y1 + (m1 : ℤ) < 12 * y2 + (m2 : ℤ)) :
    dayNumber y1 m1 (daysInMonth y1 m1) < dayNumber y2 m2 d2 := by
  have hsucc : dayNumber y1 m1 (daysInMonth y1 m1) + 1 ≤ dayNumber y2 m2 1 := by
    rcases Nat.lt_or_ge m1 12 with hm | hm
    · rw [← dayNumber_succ_month y1 m1 h1 (by omega)]
      exact monthStart_mono y1 (m1 + 1) y2 m2 (by omega) (by omega) h3 h4 (by push_cast; omega)
    · have hm1 : m1 = 12 := by omega
      subst hm1
      rw [← dayNumber_succ_year y1]
      exact monthStart_mono (y1 + 1) 1 y2 m2 (by omega) (by omega) h3 h4 (by push_cast; omega)
  have haff : dayNumber y2 m2 1 ≤ dayNumber y2 m2 d2 := by
    rw [dayNumber_affine y2 m2 d2]; omega
  omega

/-- Characterization of day normalization: on the bounded domain used by
the scheduler it preserves the day number and yields a valid date. -/
lemma normDay_spec (y : ℤ) (m : ℕ) (d : ℤ) (h1 : 1 ≤ m) (h2 : m ≤ 12)
    (hd0 : 0 ≤ d) (hd1 : d ≤ 31 ∨ d ≤ (daysInMonth y m : ℤ) + 1) :
    dayNumber (normDay y m d).1 (normDay y m d).2.1 ((normDay y m d).2.2 : ℤ)
        = dayNumber y m d
    ∧ 1 ≤ (normDay y m d).2.1 ∧ (normDay y m d).2.1 ≤ 12
    ∧ 1 ≤ (normDay y m d).2.2
    ∧ (normDay y m d).2.2 ≤ daysInMonth (normDay y m d).1 (normDay y m d).2.1 := by
  have hdim := daysInMonth_ge y m h1 h2
  unfold normDay
  split_ifs with hb hm1 hc hm12
  · -- d = 0, m = 1 : borrow into December of the previous year
    have hd : d = 0 := by omega
    subst hd; subst hm1
    dsimp only
    rw [show ((31 : ℤ) + 0).toNat = 31 by decide]
    have hy := dayNumber_succ_year (y - 1)
    rw [show daysInMonth (y - 1) 12 = 31 by simp [daysInMonth]] at hy
    rw [show y - 1 + 1 = y by ring] at hy
    have haff := dayNumber_affine y 1 0
    push_cast at hy ⊢
    exact ⟨by omega, by norm_num, by norm_num, by norm_num, by simp [daysInMonth]⟩
  · -- d = 0, m > 1 : borrow into the previous month
    have hd : d = 0 := by omega
    subst hd
    dsimp only
    have hdimp := daysInMonth_ge y (m - 1) (by omega) (by omega)
    rw [show (((daysInMonth y (m - 1) : ℤ)) + 0).toNat = daysInMonth y (m - 1) by omega]
    have hsucc := dayNumber_succ_month y (m - 1) (by omega) (by omega)
    rw [show m - 1 + 1 = m by omega] at hsucc
    have haff := dayNumber_affine y m 0
    exact ⟨by push_cast at hsucc ⊢; omega, by omega, by omega, by omega, by omega⟩
  · -- carry out of December
    have hdim12 : daysInMonth y 12 = 31 := by simp [daysInMonth]
    subst hm12
    rw [hdim12] at hc hd1
    have hd : d = 32 := by omega
    subst hd
    dsimp only
    rw [show ((32 : ℤ) - 31).toNat = 1 by decide]
    have hy := dayNumber_succ_year y
    rw [hdim12] at hy
    have haff := dayNumber_affine y 12 32
    have hdimn := daysInMonth_ge (y + 1) 1 (by omega) (by omega)
    push_cast at hy ⊢
    have haff2 := dayNumber_affine y 12 31
    exact ⟨by omega, by norm_num, by norm_num, by norm_num, by omega⟩
  · -- carry into the next month
    dsimp only
    have hdimn := daysInMonth_ge y (m + 1) (by omega) (by omega)
    rw [show ((d - (daysInMonth y m : ℤ)).toNat : ℤ) = d - daysInMonth y m by omega]
    have hsucc := dayNumber_succ_month y m h1 (by omega)
    have haff := dayNumber_affine y (m + 1) (d - (daysInMonth y m : ℤ))
    have haff2 := dayNumber_affine y m d
    have haff3 := dayNumber_affine y m (daysInMonth y m : ℕ)
    exact ⟨by omega, by omega, by omega, by omega, by omega⟩
  · -- in range: identity
    dsimp only
    rw [show ((d.toNat : ℕ) : ℤ) = d by omega]
    exact ⟨rfl, h1, h2, by omega, by omega⟩

/-- Adding one second advances the absolute second count by exactly one
and preserves validity. -/
lemma addSecond_spec (t : DateTime) (h : t.Valid) :
    (t.addSecond).absSec = t.absSec + 1 ∧ (t.addSecond).Valid := by
  obtain ⟨h1, h2, h3, h4, h5, h6, h7⟩ := h
  have hdim := daysInMonth_ge t.year t.month h1 h2
  unfold DateTime.addSecond mkDate
  dsimp only
  split_ifs <;> try dsimp only
  all_goals (
    first
    | (exfalso; omega)
    | (have hn := normDay_spec t.year t.month ((t.day : ℤ) + 1) h1 h2 (by omega) (Or.inr (by omega))
       have haff := dayNumber_add_one t.year t.month (t.day : ℤ)
       simp only [DateTime.absSec, DateTime.Valid]
       exact ⟨by omega, hn.2.1, hn.2.2.1, hn.2.2.2.1, hn.2.2.2.2, by omega, by omega, by omega⟩)
    | (have hn := normDay_spec t.year t.month (t.day : ℤ) h1 h2 (by omega) (Or.inr (by omega))
       simp only [DateTime.absSec, DateTime.Valid]
       exact ⟨by omega, hn.2.1, hn.2.2.1, hn.2.2.2.1, hn.2.2.2.2, by omega, by omega, by omega⟩)
    | (have hn := normDay_spec t.year t.month ((t.day : ℤ) - 1) h1 h2 (by omega) (Or.inr (by omega))
       have haff := dayNumber_add_one t.year t.month ((t.day : ℤ) - 1)
       rw [show (t.day : ℤ) - 1 + 1 = (t.day : ℤ) by ring] at haff
       simp only [DateTime.absSec, DateTime.Valid]
       exact ⟨by omega, hn.2.1, hn.2.2.1, hn.2.2.2.1, hn.2.2.2.2, by omega, by omega, by omega⟩))

/-- Subtracting one second recedes the absolute second count by exactly
one and preserves validity. -/
lemma subSecond_spec (t : DateTime) (h : t.Valid) :
    (t.subSecond).absSec = t.absSec - 1 ∧ (t.subSecond).Valid := by
  obtain ⟨yy, mo, dd, hh, mi, ss⟩ := t
  obtain ⟨h1, h2, h3, h4, h5, h6, h7⟩ := h
  dsimp only at h1 h2 h3 h4 h5 h6 h7
  have hdim := daysInMonth_ge yy mo h1 h2
  unfold DateTime.subSecond
  split_ifs with hs
  · refine ⟨?_, h1, h2, h3, h4, h5, h6, show ss - 1 ≤ 59 by omega⟩
    show (⟨yy, mo, dd, hh, mi, ss - 1⟩ : DateTime).absSec
        = (⟨yy, mo, dd, hh, mi, ss⟩ : DateTime).absSec - 1
    have hss : 1 ≤ ss := by exact_mod_cast hs
    simp only [DateTime.absSec]
    omega
  replace hs : ¬ ss ≥ 1 := fun hc => hs hc
  unfold mkDate
  dsimp only
  split_ifs <;> try dsimp only
  all_goals (
    first
    | (exfalso; omega)
    | (have hn := normDay_spec yy mo ((dd : ℤ) + 1) h1 h2 (by omega) (Or.inr (by omega))
       have haff := dayNumber_add_one yy mo (dd : ℤ)
       simp only [DateTime.absSec, DateTime.Valid]
       exact ⟨by omega, hn.2.1, hn.2.2.1, hn.2.2.2.1, hn.2.2.2.2, by omega, by omega, by omega⟩)
    | (have hn := normDay_spec yy mo (dd : ℤ) h1 h2 (by omega) (Or.inr (by omega))
       simp only [DateTime.absSec, DateTime.Valid]
       exact ⟨by omega, hn.2.1, hn.2.2.1, hn.2.2.2.1, hn.2.2.2.2, by omega, by omega, by omega⟩)
    | (have hn := normDay_spec yy mo ((dd : ℤ) - 1) h1 h2 (by omega) (Or.inr (by omega))
       have haff := dayNumber_add_one yy mo ((dd : ℤ) - 1)
       rw [show (dd : ℤ) - 1 + 1 = (dd : ℤ) by ring] at haff
       simp only [DateTime.absSec, DateTime.Valid]
       exact ⟨by omega, hn.2.1, hn.2.2.1, hn.2.2.2.1, hn.2.2.2.2, by omega, by omega, by omega⟩))

/-- `Scheduler.nextDay` strictly advances the absolute second count and
preserves validity. -/
lemma nextDay_spec (t : DateTime) (h : t.Valid) :
    t.absSec < (nextDay t).absSec ∧ (nextDay t).Valid := by
  obtain ⟨h1, h2, h3, h4, h5, h6, h7⟩ := h
  have hdim := daysInMonth_ge t.year t.month h1 h2
  unfold nextDay mkDate
  dsimp only
  split_ifs <;> try dsimp only
  all_goals (
    first
    | (exfalso; omega)
    | (have hn := normDay_spec t.year t.month ((t.day : ℤ) + 1) h1 h2 (by omega) (Or.inr (by omega))
       have haff := dayNumber_add_one t.year t.month (t.day : ℤ)
       simp only [DateTime.absSec, DateTime.Valid]
       exact ⟨by omega, hn.2.1, hn.2.2.1, hn.2.2.2.1, hn.2.2.2.2, by omega, by omega, by omega⟩)
    | (have hn := normDay_spec t.year t.month (t.day : ℤ) h1 h2 (by omega) (Or.inr (by omega))
       simp only [DateTime.absSec, DateTime.Valid]
       exact ⟨by omega, hn.2.1, hn.2.2.1, hn.2.2.2.1, hn.2.2.2.2, by omega, by omega, by omega⟩)
    | (have hn := normDay_spec t.year t.month ((t.day : ℤ) - 1) h1 h2 (by omega) (Or.inr (by omega))
       have haff := dayNumber_add_one t.year t.month ((t.day : ℤ) - 1)
       rw [show (t.day : ℤ) - 1 + 1 = (t.day : ℤ) by ring] at haff
       simp only [DateTime.absSec, DateTime.Valid]
       exact ⟨by omega, hn.2.1, hn.2.2.1, hn.2.2.2.1, hn.2.2.2.2, by omega, by omega, by omega⟩))

/-- `Scheduler.prevDay` strictly recedes the absolute second count and
preserves validity. -/
lemma prevDay_spec (t : DateTime) (h : t.Valid) :
    (prevDay t).absSec < t.absSec ∧ (prevDay t).Valid := by
  obtain ⟨h1, h2, h3, h4, h5, h6, h7⟩ := h
  have hdim := daysInMonth_ge t.year t.month h1 h2
  unfold prevDay mkDate
  dsimp only
  split_ifs <;> try dsimp only
  all_goals (
    first
    | (exfalso; omega)
    | (have hn := normDay_spec t.year t.month ((t.day : ℤ) + 1) h1 h2 (by omega) (Or.inr (by omega))
       have haff := dayNumber_add_one t.year t.month (t.day : ℤ)
       simp only [DateTime.absSec, DateTime.Valid]
       exact ⟨by omega, hn.2.1, hn.2.2.1, hn.2.2.2.1, hn.2.2.2.2, by omega, by omega, by omega⟩)
    | (have hn := normDay_spec t.year t.month (t.day : ℤ) h1 h2 (by omega) (Or.inr (by omega))
       simp only [DateTime.absSec, DateTime.Valid]
       exact ⟨by omega, hn.2.1, hn.2.2.1, hn.2.2.2.1, hn.2.2.2.2, by omega, by omega, by omega⟩)
    | (have hn := normDay_spec t.year t.month ((t.day : ℤ) - 1) h1 h2 (by omega) (Or.inr (by omega))
       have haff := dayNumber_add_one t.year t.month ((t.day : ℤ) - 1)
       rw [show (t.day : ℤ) - 1 + 1 = (t.day : ℤ) by ring] at haff
       simp only [DateTime.absSec, DateTime.Valid]
       exact ⟨by omega, hn.2.1, hn.2.2.1, hn.2.2.2.1, hn.2.2.2.2, by omega, by omega, by omega⟩))

/-- `Scheduler.nextHour` strictly advances the absolute second count and
preserves validity. -/
lemma nextHour_spec (t : DateTime) (h : t.Valid) :
    t.absSec < (nextHour t).absSec ∧ (nextHour t).Valid := by
  obtain ⟨h1, h2, h3, h4, h5, h6, h7⟩ := h
  have hdim := daysInMonth_ge t.year t.month h1 h2
  unfold nextHour mkDate
  dsimp only
  split_ifs <;> try dsimp only
  all_goals (
    first
    | (exfalso; omega)
    | (have hn := normDay_spec t.year t.month ((t.day : ℤ) + 1) h1 h2 (by omega) (Or.inr (by omega))
       have haff := dayNumber_add_one t.year t.month (t.day : ℤ)
       simp only [DateTime.absSec, DateTime.Valid]
       exact ⟨by omega, hn.2.1, hn.2.2.1, hn.2.2.2.1, hn.2.2.2.2, by omega, by omega, by omega⟩)
    | (have hn := normDay_spec t.year t.month (t.day : ℤ) h1 h2 (by omega) (Or.inr (by omega))
       simp only [DateTime.absSec, DateTime.Valid]
       exact ⟨by omega, hn.2.1, hn.2.2.1, hn.2.2.2.1, hn.2.2.2.2, by omega, by omega, by omega⟩)
    | (have hn := normDay_spec t.year t.month ((t.day : ℤ) - 1) h1 h2 (by omega) (Or.inr (by omega))
       have haff := dayNumber_add_one t.year t.month ((t.day : ℤ) - 1)
       rw [show (t.day : ℤ) - 1 + 1 = (t.day : ℤ) by ring] at haff
       simp only [DateTime.absSec, DateTime.Valid]
       exact ⟨by omega, hn.2.1, hn.2.2.1, hn.2.2.2.1, hn.2.2.2.2, by omega, by omega, by omega⟩))

/-- `Scheduler.prevHour` strictly recedes the absolute second count and
preserves validity. -/
lemma prevHour_spec (t : DateTime) (h : t.Valid) :
    (prevHour t).absSec < t.absSec ∧ (prevHour t).Valid := by
  obtain ⟨h1, h2, h3, h4, h5, h6, h7⟩ := h
  have hdim := daysInMonth_ge t.year t.month h1 h2
  unfold prevHour mkDate
  dsimp only
  split_ifs <;> try dsimp only
  all_goals (
    first
    | (exfalso; omega)
    | (have hn := normDay_spec t.year t.month ((t.day : ℤ) + 1) h1 h2 (by omega) (Or.inr (by omega))
       have haff := dayNumber_add_one t.year t.month (t.day : ℤ)
       simp only [DateTime.absSec, DateTime.Valid]
       exact ⟨by omega, hn.2.1, hn.2.2.1, hn.2.2.2.1, hn.2.2.2.2, by omega, by omega, by omega⟩)
    | (have hn := normDay_spec t.year t.month (t.day : ℤ) h1 h2 (by omega) (Or.inr (by omega))
       simp only [DateTime.absSec, DateTime.Valid]
       exact ⟨by omega, hn.2.1, hn.2.2.1, hn.2.2.2.1, hn.2.2.2.2, by omega, by omega, by omega⟩)
    | (have hn := normDay_spec t.year t.month ((t.day : ℤ) - 1) h1 h2 (by omega) (Or.inr (by omega))
       have haff := dayNumber_add_one t.year t.month ((t.day : ℤ) - 1)
       rw [show (t.day : ℤ) - 1 + 1 = (t.day : ℤ) by ring] at haff
       simp only [DateTime.absSec, DateTime.Valid]
       exact ⟨by omega, hn.2.1, hn.2.2.1, hn.2.2.2.1, hn.2.2.2.2, by omega, by omega, by omega⟩))

/-- `Scheduler.nextMinute` strictly advances the absolute second count
and preserves validity. -/
lemma nextMinute_spec (t : DateTime) (h : t.Valid) :
    t.absSec < (nextMinute t).absSec ∧ (nextMinute t).Valid := by
  obtain ⟨h1, h2, h3, h4, h5, h6, h7⟩ := h
  have hdim := daysInMonth_ge t.year t.month h1 h2
  unfold nextMinute mkDate
  dsimp only
  split_ifs <;> try dsimp only
  all_goals (
    first
    | (exfalso; omega)
    | (have hn := normDay_spec t.year t.month ((t.day : ℤ) + 1) h1 h2 (by omega) (Or.inr (by omega))
       have haff := dayNumber_add_one t.year t.month (t.day : ℤ)
       simp only [DateTime.absSec, DateTime.Valid]
       exact ⟨by omega, hn.2.1, hn.2.2.1, hn.2.2.2.1, hn.2.2.2.2, by omega, by omega, by omega⟩)
    | (have hn := normDay_spec t.year t.month (t.day : ℤ) h1 h2 (by omega) (Or.inr (by omega))
       simp only [DateTime.absSec, DateTime.Valid]
       exact ⟨by omega, hn.2.1, hn.2.2.1, hn.2.2.2.1, hn.2.2.2.2, by omega, by omega, by omega⟩)
    | (have hn := normDay_spec t.year t.month ((t.day : ℤ) - 1) h1 h2 (by omega) (Or.inr (by omega))
       have haff := dayNumber_add_one t.year t.month ((t.day : ℤ) - 1)
       rw [show (t.day : ℤ) - 1 + 1 = (t.day : ℤ) by ring] at haff
       simp only [DateTime.absSec, DateTime.Valid]
       exact ⟨by omega, hn.2.1, hn.2.2.1, hn.2.2.2.1, hn.2.2.2.2, by omega, by omega, by omega⟩))

/-- `Scheduler.prevMinute` strictly recedes the absolute second count and
preserves validity. -/
lemma prevMinute_spec (t : DateTime) (h : t.Valid) :
    (prevMinute t).absSec < t.absSec ∧ (prevMinute t).Valid := by
  obtain ⟨h1, h2, h3, h4, h5, h6, h7⟩ := h
  have hdim := daysInMonth_ge t.year t.month h1 h2
  unfold prevMinute mkDate
  dsimp only
  split_ifs <;> try dsimp only
  all_goals (
    first
    | (exfalso; omega)
    | (have hn := normDay_spec t.year t.month ((t.day : ℤ) + 1) h1 h2 (by omega) (Or.inr (by omega))
       have haff := dayNumber_add_one t.year t.month (t.day : ℤ)
       simp only [DateTime.absSec, DateTime.Valid]
       exact ⟨by omega, hn.2.1, hn.2.2.1, hn.2.2.2.1, hn.2.2.2.2, by omega, by omega, by omega⟩)
    | (have hn := normDay_spec t.year t.month (t.day : ℤ) h1 h2 (by omega) (Or.inr (by omega))
       simp only [DateTime.absSec, DateTime.Valid]
       exact ⟨by omega, hn.2.1, hn.2.2.1, hn.2.2.2.1, hn.2.2.2.2, by omega, by omega, by omega⟩)
    | (have hn := normDay_spec t.year t.month ((t.day : ℤ) - 1) h1 h2 (by omega) (Or.inr (by omega))
       have haff := dayNumber_add_one t.year t.month ((t.day : ℤ) - 1)
       rw [show (t.day : ℤ) - 1 + 1 = (t.day : ℤ) by ring] at haff
       simp only [DateTime.absSec, DateTime.Valid]
       exact ⟨by omega, hn.2.1, hn.2.2.1, hn.2.2.2.1, hn.2.2.2.2, by omega, by omega, by omega⟩))


/-- The `nextMonth` scan lands strictly later in the (year, month) order,
inside month bounds. -/
lemma nextMonthAux_spec (e : Expression) : ∀ (i : ℕ) (yr : ℤ) (mo : ℕ), 1 ≤ mo → mo ≤ 12 →
    12 * yr + (mo : ℤ) < 12 * (nextMonthAux e i yr mo).1 + ((nextMonthAux e i yr mo).2 : ℤ)
    ∧ 1 ≤ (nextMonthAux e i yr mo).2 ∧ (nextMonthAux e i yr mo).2 ≤ 12 := by
  intro i
  induction i with
  | zero =>
      intro yr mo hm1 hm2
      simp only [nextMonthAux]
      omega
  | succ i ih =>
      intro yr mo hm1 hm2
      simp only [nextMonthAux]
      split_ifs with hw hc hc
      · omega
      · have h := ih (yr + 1) 1 (by omega) (by omega)
        omega
      · omega
      · have h := ih yr (mo + 1) (by omega) (by omega)
        omega

/-- The `prevMonth` scan lands strictly earlier in the (year, month)
order, inside month bounds. -/
lemma prevMonthAux_spec (e : Expression) : ∀ (i : ℕ) (yr : ℤ) (mo : ℕ), 1 ≤ mo → mo ≤ 12 →
    12 * (prevMonthAux e i yr mo).1 + ((prevMonthAux e i yr mo).2 : ℤ) < 12 * yr + (mo : ℤ)
    ∧ 1 ≤ (prevMonthAux e i yr mo).2 ∧ (prevMonthAux e i yr mo).2 ≤ 12 := by
  intro i
  induction i with
  | zero =>
      intro yr mo hm1 hm2
      simp only [prevMonthAux]
      omega
  | succ i ih =>
      intro yr mo hm1 hm2
      simp only [prevMonthAux]
      split_ifs with hw hc hc
      · omega
      · have h := ih (yr - 1) 12 (by omega) (by omega)
        omega
      · omega
      · have h := ih yr (mo - 1) (by omega) (by omega)
        omega

/-- `Scheduler.nextMonth` strictly advances the absolute second count and
preserves validity. -/
lemma nextMonth_spec (e : Expression) (t : DateTime) (h : t.Valid) :
    t.absSec < (nextMonth e t).absSec ∧ (nextMonth e t).Valid := by
  obtain ⟨h1, h2, h3, h4, h5, h6, h7⟩ := h
  have hs := nextMonthAux_spec e 12 t.year t.month h1 h2
  unfold nextMonth
  rcases hrep : nextMonthAux e 12 t.year t.month with ⟨ny, nm⟩
  rw [hrep] at hs
  dsimp only at hs
  obtain ⟨hlt, hm1, hm2⟩ := hs
  have hday := dayNumber_lt_monthStart
    ((12 * ny + (nm : ℤ) - (12 * t.year + (t.month : ℤ)) - 1).toNat)
    t.year t.month ny nm t.day h1 h2 hm1 hm2 (by exact_mod_cast h4) (by omega)
  have hdimn := daysInMonth_ge ny nm hm1 hm2
  simp only [DateTime.absSec, DateTime.Valid]
  exact ⟨by push_cast; omega, hm1, hm2, by omega, by omega, by omega, by omega, by omega⟩

/-- `Scheduler.prevMonth` strictly recedes the absolute second count and
preserves validity. -/
lemma prevMonth_spec (e : Expression) (t : DateTime) (h : t.Valid) :
    (prevMonth e t).absSec < t.absSec ∧ (prevMonth e t).Valid := by
  obtain ⟨h1, h2, h3, h4, h5, h6, h7⟩ := h
  have hs := prevMonthAux_spec e 12 t.year t.month h1 h2
  unfold prevMonth
  rcases hrep : prevMonthAux e 12 t.year t.month with ⟨ny, nm⟩
  rw [hrep] at hs
  dsimp only at hs
  obtain ⟨hlt, hm1, hm2⟩ := hs
  have hday := monthEnd_lt_dayNumber ny nm t.year t.month t.day hm1 hm2 h1 h2
    (by exact_mod_cast h3) hlt
  have hdimn := daysInMonth_ge ny nm hm1 hm2
  simp only [DateTime.absSec, DateTime.Valid, lastDayOfMonth]
  exact ⟨by push_cast; omega, hm1, hm2, by omega, by omega, by omega, by omega, by omega⟩

/-- A successful `searchLoop` result is at or after the cursor, and
valid. -/
lemma searchLoop_sound (e : Expression) (maxT : DateTime) :
    ∀ (fuel : ℕ) (t : DateTime), t.Valid → ∀ r, searchLoop e maxT fuel t = some r →
      t.absSec ≤ r.absSec ∧ r.Valid := by
  intro fuel
  induction fuel with
  | zero => intro t ht r hr; simp [searchLoop] at hr
  | succ fuel ih =>
      intro t ht r hr
      simp only [searchLoop] at hr
      split_ifs at hr
      all_goals (
        first
        | exact Option.noConfusion hr
        | (simp only [Option.some.injEq] at hr
           subst hr
           exact ⟨le_refl _, ht⟩)
        | (have hj := nextMonth_spec e t ht
           have hrest := ih _ hj.2 r hr
           exact ⟨by omega, hrest.2⟩)
        | (have hj := nextDay_spec t ht
           have hrest := ih _ hj.2 r hr
           exact ⟨by omega, hrest.2⟩)
        | (have hj := nextHour_spec t ht
           have hrest := ih _ hj.2 r hr
           exact ⟨by omega, hrest.2⟩)
        | (have hj := nextMinute_spec t ht
           have hrest := ih _ hj.2 r hr
           exact ⟨by omega, hrest.2⟩)
        | (have hj := addSecond_spec t ht
           have hrest := ih (nextSecond t) (by unfold nextSecond; exact hj.2) r hr
           have habs : (nextSecond t).absSec = t.absSec + 1 := by unfold nextSecond; omega
           exact ⟨by omega, hrest.2⟩))

/-- `alignToNextMonth` does not move the cursor backward, and keeps it
valid. -/
lemma alignToNextMonth_sound (e : Expression) (t : DateTime) (ht : t.Valid) :
    t.absSec ≤ (alignToNextMonth e t).absSec ∧ (alignToNextMonth e t).Valid := by
  unfold alignToNextMonth
  split_ifs with hm
  · exact ⟨le_refl _, ht⟩
  · have hj := nextMonth_spec e t ht
    exact ⟨le_of_lt hj.1, hj.2⟩

/-- A successful `findNextMatch` result is at or after the cursor, and
valid. -/
lemma findNextMatch_sound (e : Expression) (t maxT : DateTime) (ht : t.Valid) :
    ∀ r, findNextMatch e t maxT = some r → t.absSec ≤ r.absSec ∧ r.Valid := by
  intro r hr
  unfold findNextMatch at hr
  have hal := alignToNextMonth_sound e t ht
  split_ifs at hr
  all_goals
    first
    | exact Option.noConfusion hr
    | (have hrest := searchLoop_sound e maxT _ (alignToNextMonth e t) hal.2 r hr
       exact ⟨by omega, hrest.2⟩)

/-- A successful `nextNAux` result is at or after the cursor, and valid. -/
lemma nextNAux_sound (e : Expression) (maxT : DateTime) :
    ∀ (rem : ℕ) (t : DateTime) (n : ℤ) (r : DateTime), t.Valid →
      nextNAux e maxT rem t n = .ok r → t.absSec ≤ r.absSec ∧ r.Valid := by
  intro rem
  induction rem with
  | zero => intro t n r ht hr; simp [nextNAux] at hr
  | succ rem ih =>
      intro t n r ht hr
      simp only [nextNAux] at hr
      by_cases hb : t.before maxT
      all_goals simp only [hb] at hr
      · cases hfm : findNextMatch e t maxT with
        | none => rw [hfm] at hr; exact Except.noConfusion hr
        | some nxt =>
            rw [hfm] at hr
            simp only at hr
            have hfs := findNextMatch_sound e t maxT ht nxt hfm
            by_cases hn : n - 1 ≤ 0
            all_goals simp only [hn, if_true, if_false] at hr
            · simp only [Except.ok.injEq] at hr
              subst hr
              exact hfs
            · have has := addSecond_spec nxt hfs.2
              have hrest := ih nxt.addSecond (n - 1) r has.2 hr
              exact ⟨by omega, hrest.2⟩
      · simp at hr

/-- A successful `Next` is strictly after the requested instant's
truncated cursor, and valid. -/
lemma Next_sound (e : Expression) (fromT : Instant) (hv : fromT.dt.Valid) :
    ∀ r, Next e fromT = .ok r → fromT.dt.absSec < r.absSec ∧ r.Valid := by
  intro r hr
  unfold Next NextN at hr
  simp only at hr
  have has := addSecond_spec fromT.dt hv
  have hrest := nextNAux_sound e _ (DefaultMaxIterations * 60) fromT.dt.addSecond _ r has.2 hr
  exact ⟨by omega, hrest.2⟩

/-- A successful `searchLoopPrev` result is at or before the cursor, and
valid. -/
lemma searchLoopPrev_sound (e : Expression) (minT : DateTime) :
    ∀ (fuel : ℕ) (t : DateTime), t.Valid → ∀ r, searchLoopPrev e minT fuel t = some r →
      r.absSec ≤ t.absSec ∧ r.Valid := by
  intro fuel
  induction fuel with
  | zero => intro t ht r hr; simp [searchLoopPrev] at hr
  | succ fuel ih =>
      intro t ht r hr
      simp only [searchLoopPrev] at hr
      split_ifs at hr
      all_goals (
        first
        | exact Option.noConfusion hr
        | (simp only [Option.some.injEq] at hr
           subst hr
           exact ⟨le_refl _, ht⟩)
        | (have hj := prevMonth_spec e t ht
           have hrest := ih _ hj.2 r hr
           exact ⟨by omega, hrest.2⟩)
        | (have hj := prevDay_spec t ht
           have hrest := ih _ hj.2 r hr
           exact ⟨by omega, hrest.2⟩)
        | (have hj := prevHour_spec t ht
           have hrest := ih _ hj.2 r hr
           exact ⟨by omega, hrest.2⟩)
        | (have hj := prevMinute_spec t ht
           have hrest := ih _ hj.2 r hr
           exact ⟨by omega, hrest.2⟩)
        | (have hj := subSecond_spec t ht
           have hrest := ih (prevSecond t) (by unfold prevSecond; exact hj.2) r hr
           have habs : (prevSecond t).absSec = t.absSec - 1 := by unfold prevSecond; omega
           exact ⟨by omega, hrest.2⟩))

/-- A successful `findPrevMatch` result is at or before the cursor, and
valid. -/
lemma findPrevMatch_sound (e : Expression) (t minT : DateTime) (ht : t.Valid) :
    ∀ r, findPrevMatch e t minT = some r → r.absSec ≤ t.absSec ∧ r.Valid := by
  intro r hr
  unfold findPrevMatch at hr
  exact searchLoopPrev_sound e minT _ t ht r hr

/-- A successful `previousNAux` result is at or before the cursor, and
valid. -/
lemma previousNAux_sound (e : Expression) (minT : DateTime) :
    ∀ (rem : ℕ) (t : DateTime) (n : ℤ) (r : DateTime), t.Valid →
      previousNAux e minT rem t n = .ok r → r.absSec ≤ t.absSec ∧ r.Valid := by
  intro rem
  induction rem with
  | zero => intro t n r ht hr; simp [previousNAux] at hr
  | succ rem ih =>
      intro t n r ht hr
      simp only [previousNAux] at hr
      by_cases hb : t.after minT
      all_goals simp only [hb] at hr
      · cases hfm : findPrevMatch e t minT with
        | none => rw [hfm] at hr; exact Except.noConfusion hr
        | some prev =>
            rw [hfm] at hr
            simp only at hr
            have hfs := findPrevMatch_sound e t minT ht prev hfm
            by_cases hn : n - 1 ≤ 0
            all_goals simp only [hn, if_true, if_false] at hr
            · simp only [Except.ok.injEq] at hr
              subst hr
              exact hfs
            · have has := subSecond_spec prev hfs.2
              have hrest := ih prev.subSecond (n - 1) r has.2 hr
              exact ⟨by omega, hrest.2⟩
      · simp at hr

/-- A successful `Previous` is strictly before the requested instant's
truncated cursor, and valid. -/
lemma Previous_sound (e : Expression) (fromT : Instant) (hv : fromT.dt.Valid) :
    ∀ r, Previous e fromT = .ok r → r.absSec < fromT.dt.absSec ∧ r.Valid := by
  intro r hr
  unfold Previous PreviousN at hr
  simp only at hr
  have has := subSecond_spec fromT.dt hv
  have hrest := previousNAux_sound e _ (DefaultMaxIterations * 60) fromT.dt.subSecond _ r has.2 hr
  exact ⟨by omega, hrest.2⟩

/-- Fuel adequacy for the forward search loop: any fuel at least the
number of seconds to the horizon yields the same result, because every
jump advances the cursor by at least one second.  This is exactly why the
guard-bounded Go loop terminates within the horizon. -/
lemma searchLoop_stable (e : Expression) (maxT : DateTime) :
    ∀ (f1 f2 : ℕ) (t : DateTime), t.Valid →
      (maxT.absSec - t.absSec).toNat + 1 ≤ f1 →
      (maxT.absSec - t.absSec).toNat + 1 ≤ f2 →
      searchLoop e maxT f1 t = searchLoop e maxT f2 t := by
  intro f1
  induction f1 with
  | zero => intro f2 t ht hb1 hb2; omega
  | succ f1 ih =>
      intro f2 t ht hb1 hb2
      cases f2 with
      | zero => omega
      | succ f2 =>
          by_cases hb : t.before maxT = true
          · have hblt : t.absSec < maxT.absSec := by
              simpa [DateTime.before] using hb
            simp only [searchLoop]
            rw [if_pos hb, if_pos hb]
            split_ifs
            all_goals (
              first
              | rfl
              | (have hj := nextMonth_spec e t ht
                 exact ih f2 (nextMonth e t) hj.2 (by omega) (by omega))
              | (have hj := nextDay_spec t ht
                 exact ih f2 (nextDay t) hj.2 (by omega) (by omega))
              | (have hj := nextHour_spec t ht
                 exact ih f2 (nextHour t) hj.2 (by omega) (by omega))
              | (have hj := nextMinute_spec t ht
                 exact ih f2 (nextMinute t) hj.2 (by omega) (by omega))
              | (have hj := addSecond_spec t ht
                 have habs : (nextSecond t).absSec = t.absSec + 1 := by
                   unfold nextSecond; omega
                 exact ih f2 (nextSecond t) (by unfold nextSecond; exact hj.2)
                   (by omega) (by omega)))
          · simp only [searchLoop]
            rw [if_neg hb, if_neg hb]

/-- Fuel adequacy for the backward search loop. -/
lemma searchLoopPrev_stable (e : Expression) (minT : DateTime) :
    ∀ (f1 f2 : ℕ) (t : DateTime), t.Valid →
      (t.absSec - minT.absSec).toNat + 1 ≤ f1 →
      (t.absSec - minT.absSec).toNat + 1 ≤ f2 →
      searchLoopPrev e minT f1 t = searchLoopPrev e minT f2 t := by
  intro f1
  induction f1 with
  | zero => intro f2 t ht hb1 hb2; omega
  | succ f1 ih =>
      intro f2 t ht hb1 hb2
      cases f2 with
      | zero => omega
      | succ f2 =>
          by_cases hb : t.after minT = true
          · have hblt : minT.absSec < t.absSec := by
              simpa [DateTime.after] using hb
            simp only [searchLoopPrev]
            rw [if_pos hb, if_pos hb]
            split_ifs
            all_goals (
              first
              | rfl
              | (have hj := prevMonth_spec e t ht
                 exact ih f2 (prevMonth e t) hj.2 (by omega) (by omega))
              | (have hj := prevDay_spec t ht
                 exact ih f2 (prevDay t) hj.2 (by omega) (by omega))
              | (have hj := prevHour_spec t ht
                 exact ih f2 (prevHour t) hj.2 (by omega) (by omega))
              | (have hj := prevMinute_spec t ht
                 exact ih f2 (prevMinute t) hj.2 (by omega) (by omega))
              | (have hj := subSecond_spec t ht
                 have habs : (prevSecond t).absSec = t.absSec - 1 := by
                   unfold prevSecond; omega
                 exact ih f2 (prevSecond t) (by unfold prevSecond; exact hj.2)
                   (by omega) (by omega)))
          · simp only [searchLoopPrev]
            rw [if_neg hb, if_neg hb]

lemma mem_insertVal (l : List ℕ) (w v : ℕ) :
    v ∈ insertVal l w ↔ v ∈ l ∨ v = w := by
  unfold insertVal
  split_ifs with h
  · constructor
    · exact Or.inl
    · rintro (hv | rfl)
      · exact hv
      · exact h
  · simp [List.mem_append]

lemma mem_addRangeAux (stop step : ℕ) (hstep : 1 ≤ step) :
    ∀ (fuel i : ℕ) (vals : List ℕ) (v : ℕ), stop + 1 - i ≤ fuel →
      (v ∈ addRangeAux stop step fuel i vals ↔
        v ∈ vals ∨ ∃ k, v = i + k * step ∧ v ≤ stop) := by
  intro fuel
  induction fuel with
  | zero =>
    intro i vals v hf
    simp only [addRangeAux]
    constructor
    · exact Or.inl
    · rintro (hv | ⟨k, rfl, hk⟩)
      · exact hv
      · exfalso
        have : 0 ≤ k * step := Nat.zero_le _
        omega
  | succ fuel ih =>
    intro i vals v hf
    simp only [addRangeAux]
    split_ifs with hle
    · rw [ih (i + step) (insertVal vals i) v (by omega), mem_insertVal]
      constructor
      · rintro ((hv | rfl) | ⟨k, rfl, hk⟩)
        · exact Or.inl hv
        · exact Or.inr ⟨0, by omega, hle⟩
        · exact Or.inr ⟨k + 1, by ring, hk⟩
      · rintro (hv | ⟨k, rfl, hk⟩)
        · exact Or.inl (Or.inl hv)
        · cases k with
          | zero => exact Or.inl (Or.inr (by omega))
          | succ k => exact Or.inr ⟨k, by ring, hk⟩
    · constructor
      · exact Or.inl
      · rintro (hv | ⟨k, rfl, hk⟩)
        · exact hv
        · exfalso
          have : 0 ≤ k * step := Nat.zero_le _
          omega

lemma mem_addRange (vals : List ℕ) (start stop step v : ℕ) (hstep : 1 ≤ step) :
    v ∈ addRange vals start stop step ↔
      v ∈ vals ∨ ∃ k, v = start + k * step ∧ v ≤ stop :=
  mem_addRangeAux stop step hstep _ start vals v (le_refl _)

/-! ## The claims -/

set_option maxRecDepth 100000 in
/-- C1: FAILS in the code (code_bug).  The claim says every successful
`Next`/`Previous` result satisfies the matcher `Expression.Matches` on its
decomposition, including for special day tokens.  Concretely for
`"0 0 L * *"` from 2024-02-01T00:00:00, `Next` succeeds with 2024-02-29
(the last day of February, accepted by the scheduler's `matchesDay`), yet
`Matches` on that result's decomposition (second 0, minute 0, hour 0,
day 29, month 2, weekday 4) returns `false`, because `Matches` never
consults the special-day flags and 29 is not in the encoded day set {32}. -/
theorem c1_next_result_rejected_by_Matches :
    Next (getExpr "0 0 L * *") ⟨⟨2024, 2, 1, 0, 0, 0⟩, 0⟩ =
      .ok ⟨2024, 2, 29, 0, 0, 0⟩ ∧
    matchesDay (getExpr "0 0 L * *") ⟨2024, 2, 29, 0, 0, 0⟩ = true ∧
    lastDayOfMonth 2024 2 = 29 ∧
    weekdayOf 2024 2 29 = 4 ∧
    (getExpr "0 0 L * *").Matches 0 0 0 29 2 4 = false := by
  decide

set_option maxRecDepth 100000 in
/-- C2: FAILS in the code (code_bug).  The claim says the matcher (and
hence `IsDue`) delegates to special-day resolution when a special flag is
set, so an `L` expression matches exactly the last calendar day of the
month.  Concretely `"0 0 L * *"` has the last-day-of-month flag set, all
its time fields accept 0 and its month field accepts February, 29 is the
last day of February 2024, and the scheduler's own special-day resolver
accepts 2024-02-29 — yet `IsDue` at 2024-02-29T00:00:00 returns `false`,
because `Expression.Matches` performs no special-day resolution. -/
theorem c2_IsDue_ignores_special_days :
    (getExpr "0 0 L * *").HasLastDayOfMonth = true ∧
    (getExpr "0 0 L * *").Second.Contains 0 = true ∧
    (getExpr "0 0 L * *").Minute.Contains 0 = true ∧
    (getExpr "0 0 L * *").Hour.Contains 0 = true ∧
    (getExpr "0 0 L * *").Month.Contains 2 = true ∧
    lastDayOfMonth 2024 2 = 29 ∧
    matchesSpecialDay (getExpr "0 0 L * *") ⟨2024, 2, 29, 0, 0, 0⟩ = true ∧
    IsDue (getExpr "0 0 L * *") ⟨⟨2024, 2, 29, 0, 0, 0⟩, 0⟩ = false := by
  decide

/-- C9: `ParseWithSeconds` returns exactly the same result as `Parse` on
every input string — `parseCron` never reads its seconds option — and
the field count alone decides the form: a 5-field string parses as a
Standard expression with second set {0}, a 6-field string as Extended
with the given second field, under either entry point. -/
theorem c9_seconds_option_never_consulted :
    (∀ s : String, ParseWithSeconds s = Parse s) ∧
    (∀ (s : String) (b : Bool), parseCron s b = parseCron s) ∧
    (ParseWithSeconds "0 9 * * 1-5").toOption.isSome = true ∧
    (getExpr "0 9 * * 1-5").ExprType = .StandardCron ∧
    (getExpr "0 9 * * 1-5").Second.values = [0] ∧
    (Parse "30 0 9 * * 1-5").toOption.isSome = true ∧
    (getExpr "30 0 9 * * 1-5").ExprType = .ExtendedCron ∧
    (getExpr "30 0 9 * * 1-5").Second.values = [30] := by
  refine ⟨fun s => rfl, fun s b => rfl, ?_, ?_, ?_, ?_, ?_, ?_⟩ <;> decide

/-- C10: `NextNTimes` and `PreviousNTimes` with a count `n ≤ 0` return
the empty result with no error, without performing any search. -/
theorem c10_batch_nonpositive_count_empty (e : Expression) (fromT : Instant)
    (n : ℤ) (hn : n ≤ 0) :
    NextNTimes e fromT n = .ok [] ∧ PreviousNTimes e fromT n = .ok [] := by
  unfold NextNTimes PreviousNTimes
  rw [if_pos hn, if_pos hn]
  exact ⟨rfl, rfl⟩

/-- Witness for C10 at a concrete expression, instant and count. -/
theorem c10_batch_nonpositive_count_empty_witness :
    ((-3 : ℤ) ≤ 0) ∧
      (NextNTimes (getExpr "0 9 * * 1-5") ⟨⟨2024, 1, 1, 8, 0, 0⟩, 0⟩ (-3) = .ok [] ∧
       PreviousNTimes (getExpr "0 9 * * 1-5") ⟨⟨2024, 1, 1, 8, 0, 0⟩, 0⟩ (-3) = .ok []) :=
  ⟨by decide, c10_batch_nonpositive_count_empty _ _ _ (by decide)⟩

/-- C5: step-token encodings match the implied arithmetic progressions.
`*/15` on minutes encodes exactly {0, 15, 30, 45}; the single-base form
`10/5` encodes the progression from 10 capped at the domain maximum,
{10, 15, ..., 55}; the range-base form `10-40/6` caps it at the range
end; and in general `addRange vals start stop step` adds exactly the
arithmetic progression start, start+step, ... capped at stop. -/
theorem c5_step_token_progressions (v start stop step : ℕ) (vals : List ℕ)
    (hstep : 1 ≤ step) :
    ((getField .minute "*/15").Contains v = true ↔
      (v = 0 ∨ v = 15 ∨ v = 30 ∨ v = 45)) ∧
    ((getField .minute "10/5").Contains v = true ↔
      ∃ k, v = 10 + k * 5 ∧ v ≤ 55) ∧
    ((getField .minute "10-40/6").Contains v = true ↔
      ∃ k, v = 10 + k * 6 ∧ v ≤ 40) ∧
    (v ∈ addRange vals start stop step ↔
      v ∈ vals ∨ ∃ k, v = start + k * step ∧ v ≤ stop) := by
  refine ⟨?_, ?_, ?_, mem_addRange vals start stop step v hstep⟩
  · have hv : (getField .minute "*/15").values = [0, 15, 30, 45] := by decide
    simp [Field.Contains, hv]
  · have hv : (getField .minute "10/5").values = addRange [] 10 59 5 := by decide
    rw [Field.Contains, hv, decide_eq_true_eq,
      mem_addRange [] 10 59 5 v (by decide)]
    simp only [List.not_mem_nil, false_or]
    constructor
    · rintro ⟨k, rfl, hk⟩
      exact ⟨k, rfl, by omega⟩
    · rintro ⟨k, rfl, hk⟩
      exact ⟨k, rfl, by omega⟩
  · have hv : (getField .minute "10-40/6").values = addRange [] 10 40 6 := by decide
    rw [Field.Contains, hv, decide_eq_true_eq,
      mem_addRange [] 10 40 6 v (by decide)]
    simp only [List.not_mem_nil, false_or]

/-- Witness for C5 at value 16, base 3, cap 20, step 7 and an empty seed. -/
theorem c5_step_token_progressions_witness :
    (1 : ℕ) ≤ 7 ∧
      (((getField .minute "*/15").Contains 16 = true ↔
          ((16 : ℕ) = 0 ∨ (16 : ℕ) = 15 ∨ (16 : ℕ) = 30 ∨ (16 : ℕ) = 45)) ∧
       ((getField .minute "10/5").Contains 16 = true ↔
          ∃ k, (16 : ℕ) = 10 + k * 5 ∧ (16 : ℕ) ≤ 55) ∧
       ((getField .minute "10-40/6").Contains 16 = true ↔
          ∃ k, (16 : ℕ) = 10 + k * 6 ∧ (16 : ℕ) ≤ 40) ∧
       ((16 : ℕ) ∈ addRange [] 3 20 7 ↔
          (16 : ℕ) ∈ ([] : List ℕ) ∨ ∃ k, (16 : ℕ) = 3 + k * 7 ∧ (16 : ℕ) ≤ 20)) :=
  ⟨by decide, c5_step_token_progressions 16 3 20 7 [] (by decide)⟩

/-- C3: strict monotonicity of the scheduler.  For every expression and
every valid instant, a successful `Next` returns an instant strictly
after the input and a successful `Previous` one strictly before it —
never equal, even when the input itself matches or carries sub-second
precision (results are truncated to whole seconds, so they are compared
at nanosecond resolution against the full input instant). -/
theorem c3_next_previous_strict (e : Expression) (fromT : Instant)
    (hv : fromT.Valid) :
    (∀ r, Next e fromT = .ok r → instLt fromT r.toInstant) ∧
    (∀ r, Previous e fromT = .ok r → instLt r.toInstant fromT) := by
  obtain ⟨hdt, hnano⟩ := hv
  constructor
  · intro r hr
    have h := Next_sound e fromT hdt r hr
    unfold instLt Instant.absNano DateTime.toInstant
    simp only
    omega
  · intro r hr
    have h := Previous_sound e fromT hdt r hr
    unfold instLt Instant.absNano DateTime.toInstant
    simp only
    omega

set_option maxRecDepth 100000 in
/-- Witness for C3: `"0 9 * * 1-5"` from 2024-01-01T08:00:00.5 (Monday)
runs next at 2024-01-01T09:00:00 (strictly after) and ran previously at
2023-12-29T09:00:00 (Friday, strictly before). -/
theorem c3_next_previous_strict_witness :
    Next (getExpr "0 9 * * 1-5") ⟨⟨2024, 1, 1, 8, 0, 0⟩, 500000000⟩ =
      .ok ⟨2024, 1, 1, 9, 0, 0⟩ ∧
    instLt ⟨⟨2024, 1, 1, 8, 0, 0⟩, 500000000⟩
      (DateTime.toInstant ⟨2024, 1, 1, 9, 0, 0⟩) ∧
    Previous (getExpr "0 9 * * 1-5") ⟨⟨2024, 1, 1, 8, 0, 0⟩, 500000000⟩ =
      .ok ⟨2023, 12, 29, 9, 0, 0⟩ ∧
    instLt (DateTime.toInstant ⟨2023, 12, 29, 9, 0, 0⟩)
      ⟨⟨2024, 1, 1, 8, 0, 0⟩, 500000000⟩ :=
  ⟨by decide,
   (c3_next_previous_strict (getExpr "0 9 * * 1-5")
     ⟨⟨2024, 1, 1, 8, 0, 0⟩, 500000000⟩ (by decide)).1 _ (by decide),
   by decide,
   (c3_next_previous_strict (getExpr "0 9 * * 1-5")
     ⟨⟨2024, 1, 1, 8, 0, 0⟩, 500000000⟩ (by decide)).2 _ (by decide)⟩

set_option maxRecDepth 100000 in
/-- C4 counterexample: reading "covers all natural values" literally (the
spec-side `coversAllNaturals` and `dayMatchesSpecC4`) contradicts the
code.  `"0 0 1-30,L-2 * 1"` sets no special day flag, its day-of-month
set {1..30, 34} does not cover the natural domain 1..31 and its
day-of-week set {1} does not cover 0..6, so the literal policy takes the
OR branch and accepts day 15 (a day-of-month hit) at weekday 6 — but the
code's `Matches` rejects it, because the 31-element set passes the
size-based `IsAll` test and day-of-month is treated as "all". -/
theorem c4_literal_coverage_counterexample :
    (getExpr "0 0 1-30,L-2 * 1").HasSpecialDayHandling = false ∧
    (getExpr "0 0 1-30,L-2 * 1").Second.Contains 0 = true ∧
    (getExpr "0 0 1-30,L-2 * 1").Minute.Contains 0 = true ∧
    (getExpr "0 0 1-30,L-2 * 1").Hour.Contains 0 = true ∧
    (getExpr "0 0 1-30,L-2 * 1").Month.Contains 6 = true ∧
    coversAllNaturals (getExpr "0 0 1-30,L-2 * 1").DayOfMonth = false ∧
    coversAllNaturals (getExpr "0 0 1-30,L-2 * 1").DayOfWeek = false ∧
    (getExpr "0 0 1-30,L-2 * 1").DayOfMonth.Contains 15 = true ∧
    dayMatchesSpecC4 (getExpr "0 0 1-30,L-2 * 1") 15 6 = true ∧
    (getExpr "0 0 1-30,L-2 * 1").Matches 0 0 0 15 6 6 = false := by
  decide

/-- C4 (amended): the day OR policy holds with coverage read as the
code's size-based test.  For every expression with no special day flag,
`Matches` equals the conjunction of the four time-field containments
with `dayMatchesAmendedC4`: if both day fields pass `IsAll`, every day
matches; if exactly one passes, only the other constrains; if neither
does, a day matches iff day-of-month contains the day OR day-of-week
contains the weekday.  Concretely `"0 0 15 * 1"` matches midnight of
2024-06-15 (Saturday, day-of-month hit) and 2024-06-17 (Monday,
day-of-week hit), but not 2024-06-18. -/
theorem c4_day_or_policy (e : Expression) (s mi hh d mo w : ℕ)
    (hflag : e.HasSpecialDayHandling = false) :
    e.Matches s mi hh d mo w =
      (e.Second.Contains s && e.Minute.Contains mi && e.Hour.Contains hh &&
       e.Month.Contains mo && dayMatchesAmendedC4 e d w) ∧
    (getExpr "0 0 15 * 1").Matches 0 0 0 15 6 (weekdayOf 2024 6 15) = true ∧
    weekdayOf 2024 6 15 = 6 ∧
    (getExpr "0 0 15 * 1").Matches 0 0 0 17 6 (weekdayOf 2024 6 17) = true ∧
    weekdayOf 2024 6 17 = 1 ∧
    (getExpr "0 0 15 * 1").Matches 0 0 0 18 6 (weekdayOf 2024 6 18) = false := by
  refine ⟨?_, by decide, by decide, by decide, by decide, by decide⟩
  unfold Expression.Matches dayMatchesAmendedC4
  by_cases h1 : e.Second.Contains s = true <;>
    by_cases h2 : e.Minute.Contains mi = true <;>
      by_cases h3 : e.Hour.Contains hh = true <;>
        by_cases h4 : e.Month.Contains mo = true <;>
          simp [h1, h2, h3, h4]

/-- Witness for C4 at `"0 0 15 * 1"`, 2024-06-15T00:00:00 (Saturday). -/
theorem c4_day_or_policy_witness :
    (getExpr "0 0 15 * 1").HasSpecialDayHandling = false ∧
      ((getExpr "0 0 15 * 1").Matches 0 0 0 15 6 6 =
        ((getExpr "0 0 15 * 1").Second.Contains 0 &&
         (getExpr "0 0 15 * 1").Minute.Contains 0 &&
         (getExpr "0 0 15 * 1").Hour.Contains 0 &&
         (getExpr "0 0 15 * 1").Month.Contains 6 &&
         dayMatchesAmendedC4 (getExpr "0 0 15 * 1") 15 6) ∧
       (getExpr "0 0 15 * 1").Matches 0 0 0 15 6 (weekdayOf 2024 6 15) = true ∧
       weekdayOf 2024 6 15 = 6 ∧
       (getExpr "0 0 15 * 1").Matches 0 0 0 17 6 (weekdayOf 2024 6 17) = true ∧
       weekdayOf 2024 6 17 = 1 ∧
       (getExpr "0 0 15 * 1").Matches 0 0 0 18 6 (weekdayOf 2024 6 18) = false) :=
  ⟨by decide, c4_day_or_policy (getExpr "0 0 15 * 1") 0 0 0 15 6 6 (by decide)⟩

/-- Any expression whose day-of-month set holds code 33 with the
last-weekday flag set fires the special-day resolver on the last weekday
of every month (the `LW` predicate). -/
lemma matchesSpecialDay_lastWeekday (e : Expression) (y : ℤ) (m : ℕ)
    (h1 : e.HasLastWeekday = true) (h2 : e.DayOfMonth.Contains 33 = true) :
    matchesSpecialDay e ⟨y, m, lastWeekdayOfMonth y m, 0, 0, 0⟩ = true := by
  simp [matchesSpecialDay, h1, h2]

/-- Any expression whose day-of-month set holds code 33 fires the
special-day resolver one day before month end (the `L-1` predicate, read
off the same code 33 by the `L-N` branch). -/
lemma matchesSpecialDay_beforeEnd (e : Expression) (y : ℤ) (m : ℕ)
    (hm1 : 1 ≤ m) (hm2 : m ≤ 12) (hv : 33 ∈ e.DayOfMonth.values) :
    matchesSpecialDay e ⟨y, m, lastDayOfMonth y m - 1, 0, 0, 0⟩ = true := by
  have hd := daysInMonth_ge y m hm1 hm2
  have hl : lastDayOfMonth y m = daysInMonth y m := rfl
  simp only [matchesSpecialDay, Bool.or_eq_true, Bool.and_eq_true, decide_eq_true_eq]
  exact Or.inl (Or.inl (Or.inl (Or.inl (Or.inl (Or.inr
    ⟨33, hv, by norm_num, by norm_num, by omega, by omega⟩)))))

/-- C6: the `L-1` / `LW` encoding collision.  Parsing the day-of-month
tokens `L-1` and `LW` both succeed with the identical value set {33}, so
the two tokens are indistinguishable once encoded; either expression gets
the last-weekday flag (and not the last-day-of-month flag), and for every
month its special-day resolver accepts both the last weekday of the month
and the day before month end — the resolver tests both predicates. -/
theorem c6_l1_lw_collision (y : ℤ) (m : ℕ) (hm1 : 1 ≤ m) (hm2 : m ≤ 12) :
    (getField .dayOfMonth "L-1").values = [33] ∧
    (getField .dayOfMonth "LW").values = [33] ∧
    (getExpr "0 0 L-1 * *").HasLastWeekday = true ∧
    (getExpr "0 0 L-1 * *").HasLastDayOfMonth = false ∧
    (getExpr "0 0 LW * *").HasLastWeekday = true ∧
    (getExpr "0 0 L-1 * *").DayOfMonth.values =
      (getExpr "0 0 LW * *").DayOfMonth.values ∧
    matchesSpecialDay (getExpr "0 0 L-1 * *")
      ⟨y, m, lastWeekdayOfMonth y m, 0, 0, 0⟩ = true ∧
    matchesSpecialDay (getExpr "0 0 L-1 * *")
      ⟨y, m, lastDayOfMonth y m - 1, 0, 0, 0⟩ = true ∧
    matchesSpecialDay (getExpr "0 0 LW * *")
      ⟨y, m, lastWeekdayOfMonth y m, 0, 0, 0⟩ = true ∧
    matchesSpecialDay (getExpr "0 0 LW * *")
      ⟨y, m, lastDayOfMonth y m - 1, 0, 0, 0⟩ = true := by
  refine ⟨by decide, by decide, by decide, by decide, by decide, by decide,
    matchesSpecialDay_lastWeekday _ y m (by decide) (by decide),
    matchesSpecialDay_beforeEnd _ y m hm1 hm2 (by decide),
    matchesSpecialDay_lastWeekday _ y m (by decide) (by decide),
    matchesSpecialDay_beforeEnd _ y m hm1 hm2 (by decide)⟩

/-- Witness for C6 in June 2024 (last weekday the 28th, 30 days). -/
theorem c6_l1_lw_collision_witness :
    ((1 : ℕ) ≤ 6 ∧ (6 : ℕ) ≤ 12) ∧
      ((getField .dayOfMonth "L-1").values = [33] ∧
       (getField .dayOfMonth "LW").values = [33] ∧
       (getExpr "0 0 L-1 * *").HasLastWeekday = true ∧
       (getExpr "0 0 L-1 * *").HasLastDayOfMonth = false ∧
       (getExpr "0 0 LW * *").HasLastWeekday = true ∧
       (getExpr "0 0 L-1 * *").DayOfMonth.values =
         (getExpr "0 0 LW * *").DayOfMonth.values ∧
       matchesSpecialDay (getExpr "0 0 L-1 * *")
         ⟨2024, 6, lastWeekdayOfMonth 2024 6, 0, 0, 0⟩ = true ∧
       matchesSpecialDay (getExpr "0 0 L-1 * *")
         ⟨2024, 6, lastDayOfMonth 2024 6 - 1, 0, 0, 0⟩ = true ∧
       matchesSpecialDay (getExpr "0 0 LW * *")
         ⟨2024, 6, lastWeekdayOfMonth 2024 6, 0, 0, 0⟩ = true ∧
       matchesSpecialDay (getExpr "0 0 LW * *")
         ⟨2024, 6, lastDayOfMonth 2024 6 - 1, 0, 0, 0⟩ = true) :=
  ⟨⟨by decide, by decide⟩, c6_l1_lw_collision 2024 6 (by decide) (by decide)⟩

set_option maxRecDepth 100000 in
/-- C8: bounded termination of the search.  Every jump of the inner
search strictly advances (respectively recedes) the time cursor by at
least one second; consequently any fuel at least the second-distance to
the horizon gives the search loops a fixed result (the loops are bounded
by the horizon guard, never by the fuel), and when no matching instant
exists within the bounds the calls return the not-found errors — here
`"0 0 30 2 *"` (February 30th), for which `Next` returns the no-next-run
error and `Previous` the no-previous-run error instead of looping. -/
theorem c8_bounded_termination (e : Expression) (t maxT minT : DateTime)
    (ht : t.Valid) :
    (t.absSec < t.addSecond.absSec ∧ t.absSec < (nextMinute t).absSec ∧
     t.absSec < (nextHour t).absSec ∧ t.absSec < (nextDay t).absSec ∧
     t.absSec < (nextMonth e t).absSec) ∧
    (t.subSecond.absSec < t.absSec ∧ (prevMinute t).absSec < t.absSec ∧
     (prevHour t).absSec < t.absSec ∧ (prevDay t).absSec < t.absSec ∧
     (prevMonth e t).absSec < t.absSec) ∧
    (∀ f1 f2 : ℕ,
      (maxT.absSec - t.absSec).toNat + 1 ≤ f1 →
      (maxT.absSec - t.absSec).toNat + 1 ≤ f2 →
      searchLoop e maxT f1 t = searchLoop e maxT f2 t) ∧
    (∀ f1 f2 : ℕ,
      (t.absSec - minT.absSec).toNat + 1 ≤ f1 →
      (t.absSec - minT.absSec).toNat + 1 ≤ f2 →
      searchLoopPrev e minT f1 t = searchLoopPrev e minT f2 t) ∧
    Next (getExpr "0 0 30 2 *") ⟨⟨2024, 1, 1, 0, 0, 0⟩, 0⟩ =
      .error .noNextRun ∧
    Previous (getExpr "0 0 30 2 *") ⟨⟨2024, 1, 1, 0, 0, 0⟩, 0⟩ =
      .error .noPreviousRun := by
  refine ⟨⟨?_, (nextMinute_spec t ht).1, (nextHour_spec t ht).1,
           (nextDay_spec t ht).1, (nextMonth_spec e t ht).1⟩,
          ⟨?_, (prevMinute_spec t ht).1, (prevHour_spec t ht).1,
           (prevDay_spec t ht).1, (prevMonth_spec e t ht).1⟩,
          fun f1 f2 hb1 hb2 => searchLoop_stable e maxT f1 f2 t ht hb1 hb2,
          fun f1 f2 hb1 hb2 => searchLoopPrev_stable e minT f1 f2 t ht hb1 hb2,
          by decide, by decide⟩
  · have h := addSecond_spec t ht
    omega
  · have h := subSecond_spec t ht
    omega

/-- Witness for C8: `"0 9 * * 1-5"` on the first hours of 2024-01-01,
with the horizon at midnight of 2024-01-02 (57601 seconds ahead of the
08:00 cursor). -/
theorem c8_bounded_termination_witness :
    (⟨2024, 1, 1, 8, 0, 0⟩ : DateTime).Valid ∧
      (((⟨2024, 1, 1, 8, 0, 0⟩ : DateTime).absSec <
          (⟨2024, 1, 1, 8, 0, 0⟩ : DateTime).addSecond.absSec ∧
        (⟨2024, 1, 1, 8, 0, 0⟩ : DateTime).absSec <
          (nextMinute ⟨2024, 1, 1, 8, 0, 0⟩).absSec ∧
        (⟨2024, 1, 1, 8, 0, 0⟩ : DateTime).absSec <
          (nextHour ⟨2024, 1, 1, 8, 0, 0⟩).absSec ∧
        (⟨2024, 1, 1, 8, 0, 0⟩ : DateTime).absSec <
          (nextDay ⟨2024, 1, 1, 8, 0, 0⟩).absSec ∧
        (⟨2024, 1, 1, 8, 0, 0⟩ : DateTime).absSec <
          (nextMonth (getExpr "0 9 * * 1-5") ⟨2024, 1, 1, 8, 0, 0⟩).absSec) ∧
       ((⟨2024, 1, 1, 8, 0, 0⟩ : DateTime).subSecond.absSec <
          (⟨2024, 1, 1, 8, 0, 0⟩ : DateTime).absSec ∧
        (prevMinute ⟨2024, 1, 1, 8, 0, 0⟩).absSec <
          (⟨2024, 1, 1, 8, 0, 0⟩ : DateTime).absSec ∧
        (prevHour ⟨2024, 1, 1, 8, 0, 0⟩).absSec <
          (⟨2024, 1, 1, 8, 0, 0⟩ : DateTime).absSec ∧
        (prevDay ⟨2024, 1, 1, 8, 0, 0⟩).absSec <
          (⟨2024, 1, 1, 8, 0, 0⟩ : DateTime).absSec ∧
        (prevMonth (getExpr "0 9 * * 1-5") ⟨2024, 1, 1, 8, 0, 0⟩).absSec <
          (⟨2024, 1, 1, 8, 0, 0⟩ : DateTime).absSec) ∧
       (∀ f1 f2 : ℕ,
         ((⟨2024, 1, 2, 0, 0, 0⟩ : DateTime).absSec -
           (⟨2024, 1, 1, 8, 0, 0⟩ : DateTime).absSec).toNat + 1 ≤ f1 →
         ((⟨2024, 1, 2, 0, 0, 0⟩ : DateTime).absSec -
           (⟨2024, 1, 1, 8, 0, 0⟩ : DateTime).absSec).toNat + 1 ≤ f2 →
         searchLoop (getExpr "0 9 * * 1-5") ⟨2024, 1, 2, 0, 0, 0⟩ f1
             ⟨2024, 1, 1, 8, 0, 0⟩ =
           searchLoop (getExpr "0 9 * * 1-5") ⟨2024, 1, 2, 0, 0, 0⟩ f2
             ⟨2024, 1, 1, 8, 0, 0⟩) ∧
       (∀ f1 f2 : ℕ,
         ((⟨2024, 1, 1, 8, 0, 0⟩ : DateTime).absSec -
           (⟨2024, 1, 1, 0, 0, 0⟩ : DateTime).absSec).toNat + 1 ≤ f1 →
         ((⟨2024, 1, 1, 8, 0, 0⟩ : DateTime).absSec -
           (⟨2024, 1, 1, 0, 0, 0⟩ : DateTime).absSec).toNat + 1 ≤ f2 →
         searchLoopPrev (getExpr "0 9 * * 1-5") ⟨2024, 1, 1, 0, 0, 0⟩ f1
             ⟨2024, 1, 1, 8, 0, 0⟩ =
           searchLoopPrev (getExpr "0 9 * * 1-5") ⟨2024, 1, 1, 0, 0, 0⟩ f2
             ⟨2024, 1, 1, 8, 0, 0⟩) ∧
       Next (getExpr "0 0 30 2 *") ⟨⟨2024, 1, 1, 0, 0, 0⟩, 0⟩ =
         .error .noNextRun ∧
       Previous (getExpr "0 0 30 2 *") ⟨⟨2024, 1, 1, 0, 0, 0⟩, 0⟩ =
         .error .noPreviousRun) :=
  ⟨by decide,
   c8_bounded_termination (getExpr "0 9 * * 1-5") ⟨2024, 1, 1, 8, 0, 0⟩
     ⟨2024, 1, 2, 0, 0, 0⟩ ⟨2024, 1, 1, 0, 0, 0⟩ (by decide)⟩

/-- Binding a success in the `Except` monad just applies the
continuation. -/
lemma exceptBind_ok {ε α β : Type} (a : α) (f : α → Except ε β) :
    (Except.ok a >>= f : Except ε β) = f a := rfl

/-- A whitespace-token count outside 5..6 fails with the invalid-count
error before any field is parsed (no field hypothesis is needed). -/
lemma parseCron_badFieldCount (s : String) (b : Bool)
    (hne : trimStr s.data ≠ [])
    (hat : (trimStr s.data).head? ≠ some '@')
    (hc : (goFields (trimStr s.data)).length < 5 ∨
      6 < (goFields (trimStr s.data)).length) :
    parseCron s b = .error .invalidFieldCount := by
  unfold parseCron
  rw [if_neg hne, if_neg hat, pure_bind]
  dsimp only
  rw [if_pos hc]
  rfl

/-- An inverted range (both endpoints parsing and validating, end before
start) fails with the distinct range error. -/
lemma parseRange_inverted (ft : FieldType) (vals : List ℕ) (part s0 s1 : List Char)
    (a b : ℤ)
    (hsplit : splitN2 part '-' = [s0, s1])
    (hp0 : parseValue ft s0 = .ok a) (hp1 : parseValue ft s1 = .ok b)
    (hv0 : validateValue ft a s0 = .ok ()) (hv1 : validateValue ft b s1 = .ok ())
    (hlt : b < a) :
    parseRange ft vals part = .error (.rangeError ft a b) := by
  unfold parseRange
  rw [hsplit]
  simp only [hp0, hp1, exceptBind_ok, hv0, hv1]
  rw [if_pos hlt]
  rfl

/-- A numeric but non-positive step fails with the distinct step error. -/
lemma parseStep_nonpositive (ft : FieldType) (vals : List ℕ)
    (part baseExpr stepStr : List Char) (k : ℤ)
    (hsplit : splitN2 part '/' = [baseExpr, stepStr])
    (hk : atoi stepStr = some k) (hnp : k ≤ 0) :
    parseStep ft vals part = .error (.stepError ft k) := by
  unfold parseStep
  rw [hsplit]
  dsimp only
  rw [hk]
  dsimp only
  rw [pure_bind, if_pos hnp]
  rfl

/-- C7: error taxonomy and fail-fast parsing.  Empty or whitespace-only
input fails with the empty-expression error; a whitespace-token count
other than 5 or 6 fails with the invalid-field-count error before any
field is parsed; an inverted range fails with a distinct range error
carrying the two endpoints; a non-positive step fails with a distinct
step error carrying the step; and a field failure aborts the whole parse
with that field's error, so no expression value is returned. -/
theorem c7_error_taxonomy :
    parseCron "" = .error .emptyExpression ∧
    parseCron "   " = .error .emptyExpression ∧
    parseCron "* * *" = .error .invalidFieldCount ∧
    parseCron "* * * * * * *" = .error .invalidFieldCount ∧
    (∀ (s : String) (b : Bool), trimStr s.data ≠ [] →
      (trimStr s.data).head? ≠ some '@' →
      ((goFields (trimStr s.data)).length < 5 ∨
        6 < (goFields (trimStr s.data)).length) →
      parseCron s b = .error .invalidFieldCount) ∧
    (∀ (ft : FieldType) (vals : List ℕ) (part s0 s1 : List Char) (a b : ℤ),
      splitN2 part '-' = [s0, s1] →
      parseValue ft s0 = .ok a → parseValue ft s1 = .ok b →
      validateValue ft a s0 = .ok () → validateValue ft b s1 = .ok () →
      b < a → parseRange ft vals part = .error (.rangeError ft a b)) ∧
    (∀ (ft : FieldType) (vals : List ℕ) (part baseExpr stepStr : List Char) (k : ℤ),
      splitN2 part '/' = [baseExpr, stepStr] →
      atoi stepStr = some k → k ≤ 0 →
      parseStep ft vals part = .error (.stepError ft k)) ∧
    FieldParser.Parse .minute "15-10".data = .error (.rangeError .minute 15 10) ∧
    FieldParser.Parse .minute "*/0".data = .error (.stepError .minute 0) ∧
    parseCron "0 0 15-10 * *" = .error (.rangeError .dayOfMonth 15 10) :=
  ⟨by decide, by decide, by decide, by decide,
   parseCron_badFieldCount, parseRange_inverted, parseStep_nonpositive,
   by decide, by decide, by decide⟩

/-- Witness for C7's general clauses: a 4-field string, the inverted
hour range `20-3`, and the zero step `*/0`. -/
theorem c7_error_taxonomy_witness :
    (goFields (trimStr "* * * *".data)).length < 5 ∧
    parseCron "* * * *" true = .error .invalidFieldCount ∧
    splitN2 "20-3".data '-' = ["20".data, "3".data] ∧
    parseRange .hour [] "20-3".data = .error (.rangeError .hour 20 3) ∧
    atoi "0".data = some 0 ∧
    parseStep .hour [] "*/0".data = .error (.stepError .hour 0) :=
  ⟨by decide,
   c7_error_taxonomy.2.2.2.2.1 "* * * *" true (by decide) (by decide)
     (by decide),
   by decide,
   c7_error_taxonomy.2.2.2.2.2.1 .hour [] "20-3".data "20".data "3".data 20 3
     (by decide) (by decide) (by decide) (by decide) (by decide) (by decide),
   by decide,
   c7_error_taxonomy.2.2.2.2.2.2.1 .hour [] "*/0".data "*".data "0".data 0
     (by decide) (by decide) (by decide)⟩

end ExpressParser
